import Mathlib

/-!
Verification of the SqlPile SQL-validation engine specification against its
source. Strings are modelled as `List Char` (ASCII fragment of Python's str);
each definition is a direct transliteration of the corresponding Python
function from `src/`, with external effects (the DuckDB engine, the sqloxide
parser, json parsing) modelled as explicit oracle inputs. Python functions
that can raise are modelled with `Option`/`Except`, `none`/`error` marking the
raising executions.
-/

namespace SqlPile

/-- Characters of a string literal. -/
def cs (s : String) : List Char := s.toList

/-- The backtick character (code 96). -/
def btick : Char := Char.ofNat 96

/-- The single-quote character (code 39). -/
def squote : Char := Char.ofNat 39

/-- Python `str.lower` on one ASCII character, as a finite table. -/
def upperLower : List (Char × Char) :=
  [('A','a'), ('B','b'), ('C','c'), ('D','d'), ('E','e'), ('F','f'), ('G','g'),
   ('H','h'), ('I','i'), ('J','j'), ('K','k'), ('L','l'), ('M','m'), ('N','n'),
   ('O','o'), ('P','p'), ('Q','q'), ('R','r'), ('S','s'), ('T','t'), ('U','u'),
   ('V','v'), ('W','w'), ('X','x'), ('Y','y'), ('Z','z')]

/-- Lower-case one character (Python `str.lower`, ASCII). -/
def lowerChar (c : Char) : Char :=
  match upperLower.find? (fun p => p.1 = c) with
  | some p => p.2
  | none => c

/-- Python `str.lower` (ASCII model). -/
def pyLower (l : List Char) : List Char := l.map lowerChar

/-- Python whitespace (the six ASCII whitespace characters of `str.strip`/`\s`). -/
def pyIsSpace (c : Char) : Bool :=
  c = ' ' || c = '\t' || c = '\n' || c = '\r' || c = '\x0b' || c = '\x0c'

/-- Python `str.strip` (ASCII whitespace model). -/
def pyStrip (l : List Char) : List Char :=
  ((l.dropWhile pyIsSpace).reverse.dropWhile pyIsSpace).reverse

/-- A regex `\d` digit (ASCII). -/
def isDigitC (c : Char) : Bool := '0' ≤ c && c ≤ '9'

/-- A regex `\w` word character (ASCII model: letters, digits, underscore). -/
def isWordC (c : Char) : Bool :=
  ('a' ≤ c && c ≤ 'z') || ('A' ≤ c && c ≤ 'Z') || isDigitC c || c = '_'

/-- Python's `in` operator on strings: `p` occurs as a contiguous substring. -/
def csub (p s : List Char) : Bool := decide (p <:+: s)

/-! ## Type Unifier: `unify_type` from `src/src/sql_analysis/tools/sql_types.py` -/

/-- Fueled worker for `subParens`; the fuel (instantiated with the input
length, which the scan never exhausts since every step consumes at least one
character) makes the recursion structural so that the kernel can evaluate it. -/
def subPAux (fuel : Nat) (s : List Char) : List Char :=
  match fuel, s with
  | _, [] => []
  | 0, s => s
  | fuel1 + 1, c :: rest =>
    if c = '(' then
      let run := rest.takeWhile (fun d => d ≠ '\n')
      let after := rest.dropWhile (fun d => d ≠ '\n')
      if ')' ∈ run then
        subPAux fuel1 ((run.reverse.takeWhile (fun d => d ≠ ')')).reverse ++ after)
      else c :: subPAux fuel1 rest
    else c :: subPAux fuel1 rest

/-- One application of `re.sub(r'\(.*\)', '', t)`: Python's `.` does not match
a newline, the `.*` is greedy, and `re.sub` removes every non-overlapping
leftmost match, continuing after each removed span. -/
def subParens (l : List Char) : List Char := subPAux l.length l

/-- Leftmost match of `\((\d+)(?:,(\d+))?\)`: returns the two digit groups
(the second one optional). -/
def findPrec (l : List Char) : Option (List Char × Option (List Char)) :=
  match l with
  | [] => none
  | c :: rest =>
    (if c = '(' then
      let d1 := rest.takeWhile isDigitC
      let r1 := rest.dropWhile isDigitC
      if d1 = [] then none
      else
        match r1 with
        | ')' :: _ => some (d1, none)
        | ',' :: r2 =>
          let d2 := r2.takeWhile isDigitC
          let r3 := r2.dropWhile isDigitC
          if d2 = [] then none
          else match r3 with
            | ')' :: _ => some (d1, some d2)
            | _ => none
        | _ => none
    else none).orElse (fun _ => findPrec rest)

/-- Tokens of the family regexes: a literal word, `\s+`, or `[ _]?`. -/
inductive PTok where
  | lit (w : List Char)
  | sp1
  | spu
deriving DecidableEq

/-- Match a token sequence at the head of `s`, returning the number of
characters consumed (greedy `\s+`, and `[ _]?` tries one character first). -/
def matchToks : List PTok → List Char → Option Nat
  | [], _ => some 0
  | PTok.lit w :: ts, s =>
    if w.isPrefixOf s then (matchToks ts (s.drop w.length)).map (· + w.length) else none
  | PTok.sp1 :: ts, s =>
    let sp := s.takeWhile pyIsSpace
    if sp.length = 0 then none
    else (matchToks ts (s.drop sp.length)).map (· + sp.length)
  | PTok.spu :: ts, s =>
    match s with
    | [] => matchToks ts []
    | c :: s' =>
      if c = ' ' || c = '_' then
        match matchToks ts s' with
        | some n => some (n + 1)
        | none => matchToks ts (c :: s')
      else matchToks ts (c :: s')

/-- `re.search(r'\b(alt1|alt2|...)\b', s)` for alternatives of word-character
tokens: some alternative matches at some position with word boundaries on
both sides. `prev` is the character before the current position. -/
def searchFrom (alts : List (List PTok)) : Option Char → List Char → Bool
  | _, [] => false
  | prev, c :: rest =>
    ((match prev with | none => true | some p => !isWordC p) &&
      alts.any (fun alt =>
        match matchToks alt (c :: rest) with
        | some n =>
          match (c :: rest).drop n with
          | [] => true
          | d :: _ => !isWordC d
        | none => false))
    || searchFrom alts (some c) rest

/-- Word-boundary search for a list of token alternatives. -/
def searchToks (alts : List (List PTok)) (s : List Char) : Bool :=
  searchFrom alts none s

/-- Word-boundary search for plain word alternatives. -/
def searchWords (ws : List (List Char)) (s : List Char) : Bool :=
  searchToks (ws.map (fun w => [PTok.lit w])) s

/-- The `_CANONICALS` integer-family table (pattern words, signed name,
unsigned name), in source order. -/
def canonicals : List (List (List Char) × List Char × List Char) :=
  [([cs "bit", cs "bitsigned", cs "bitu", cs "bitunsigned", cs "int1", cs "int1signed",
     cs "int1u", cs "int1unsigned", cs "int8", cs "int8signed", cs "int8u", cs "int8unsigned",
     cs "signedbit", cs "signedint1", cs "signedint8", cs "signedtinyint", cs "tinyint",
     cs "tinyintsigned", cs "tinyintu", cs "tinyintunsigned", cs "ubit", cs "uint1",
     cs "uint8", cs "unsignedbit", cs "unsignedint1", cs "unsignedint8",
     cs "unsignedtinyint", cs "utinyint"], cs "Int8", cs "UInt8"),
   ([cs "int16", cs "int16signed", cs "int16u", cs "int16unsigned", cs "int2",
     cs "int2signed", cs "int2u", cs "int2unsigned", cs "signedint16", cs "signedint2",
     cs "signedsmallint", cs "signedsmallserial", cs "smallint", cs "smallintsigned",
     cs "smallintu", cs "smallintunsigned", cs "smallserial", cs "smallserialsigned",
     cs "smallserialu", cs "smallserialunsigned", cs "uint16", cs "uint2",
     cs "unsignedint16", cs "unsignedint2", cs "unsignedsmallint",
     cs "unsignedsmallserial", cs "usmallint", cs "usmallserial"], cs "Int16", cs "UInt16"),
   ([cs "int24", cs "int24signed", cs "int24u", cs "int24unsigned", cs "int3",
     cs "int3signed", cs "int3u", cs "int3unsigned", cs "mediumint", cs "mediumintsigned",
     cs "mediumintu", cs "mediumintunsigned", cs "signedint24", cs "signedint3",
     cs "signedmediumint", cs "uint24", cs "uint3", cs "umediumint", cs "unsignedint24",
     cs "unsignedint3", cs "unsignedmediumint"], cs "Int24", cs "UInt24"),
   ([cs "int", cs "int32", cs "int32signed", cs "int32u", cs "int32unsigned", cs "int4",
     cs "int4signed", cs "int4u", cs "int4unsigned", cs "integer", cs "integersigned",
     cs "integeru", cs "integerunsigned", cs "intsigned", cs "intu", cs "intunsigned",
     cs "serial", cs "serialsigned", cs "serialu", cs "serialunsigned", cs "signedint",
     cs "signedint32", cs "signedint4", cs "signedinteger", cs "signedserial", cs "uint",
     cs "uint32", cs "uint4", cs "uinteger", cs "unsignedint", cs "unsignedint32",
     cs "unsignedint4", cs "unsignedinteger", cs "unsignedserial", cs "userial"],
    cs "Int32", cs "UInt32"),
   ([cs "bigint", cs "bigintsigned", cs "bigintu", cs "bigintunsigned", cs "bigserial",
     cs "bigserialsigned", cs "bigserialu", cs "bigserialunsigned", cs "int64",
     cs "int64signed", cs "int64u", cs "int64unsigned", cs "int8", cs "int8signed",
     cs "int8u", cs "int8unsigned", cs "long", cs "longsigned", cs "longu",
     cs "longunsigned", cs "signedbigint", cs "signedbigserial", cs "signedint64",
     cs "signedint8", cs "signedlong", cs "ubigint", cs "ubigserial", cs "uint64",
     cs "uint8", cs "ulong", cs "unsignedbigint", cs "unsignedbigserial",
     cs "unsignedint64", cs "unsignedint8", cs "unsignedlong"], cs "Int64", cs "UInt64")]

/-- Find the first canonical integer family whose pattern matches. -/
def canonMatch (t : List Char) : Option (List Char × List Char) :=
  match canonicals.find? (fun g => searchWords g.1 t) with
  | some g => some g.2
  | none => none

/-- One-token literal alternative. -/
def lalt (w : String) : List PTok := [PTok.lit (cs w)]

/-- `_TEXT_VARYING` alternatives (`char[ _]?varying` first, as in the source). -/
def textVaryingAlts : List (List PTok) :=
  [[PTok.lit (cs "char"), PTok.spu, PTok.lit (cs "varying")],
   lalt "string", lalt "longvarchar", lalt "varchar", lalt "character",
   lalt "charactervarying", lalt "longtext", lalt "nvarchar", lalt "varchar2",
   lalt "nvarchar2", lalt "text", lalt "clob"]

/-- `_TEXT_FIXED` alternatives (including the literal `character varying`). -/
def textFixedAlts : List (List PTok) :=
  [lalt "char", lalt "nchar", lalt "bpchar", lalt "mediumtext", lalt "tinytext",
   lalt "character varying"]

/-- `_FLOATING` alternatives (`double\s+precision` uses a `\s+` token). -/
def floatingAlts : List (List PTok) :=
  [lalt "float", lalt "float4", lalt "float8", lalt "double", lalt "doubleprecision",
   [PTok.lit (cs "double"), PTok.sp1, PTok.lit (cs "precision")],
   lalt "real", lalt "decimal", lalt "dec", lalt "numeric", lalt "number"]

/-- `_BOOLEAN` alternatives. -/
def booleanAlts : List (List PTok) :=
  [lalt "bool", lalt "boolean", lalt "boolean_char"]

/-- `_DATE_TIME` alternatives. -/
def dateTimeAlts : List (List PTok) :=
  [lalt "date", lalt "time", lalt "datetime", lalt "datetime2", lalt "time_stamp",
   lalt "timestamp", lalt "timestamptz", lalt "smalldatetime", lalt "timetz",
   lalt "interval"]

/-- `_BINARY` alternatives. -/
def binaryAlts : List (List PTok) :=
  [lalt "blob", lalt "binary", lalt "varbinary", lalt "bytea", lalt "image",
   lalt "longblob", lalt "mediumblob", lalt "tinyblob"]

/-- `_JSON_TYPE` alternatives. -/
def jsonAlts : List (List PTok) := [lalt "json", lalt "jsonb"]

/-- `_UUID_TYPE` alternatives. -/
def uuidAlts : List (List PTok) := [lalt "uuid", lalt "uniqueidentifier"]

/-- `_XML_TYPE` alternatives. -/
def xmlAlts : List (List PTok) := [lalt "xml"]

/-- `_ENUM_TYPE` alternatives. -/
def enumAlts : List (List PTok) := [lalt "enum", lalt "set"]

/-- The tail of `unify_type` after the number/decimal special cases: strip the
parenthesised qualifiers, read `t[0]` (raising `IndexError`, i.e. `none`, when
`t` is empty), then try the family patterns in source order. -/
def unifyTail (t0 : List Char) : Option (List Char × List Char) :=
  let t := subParens t0
  match t with
  | [] => none
  | c :: _ =>
    let unsigned := csub (cs "unsigned") t || (c = 'u')
    some (match canonMatch t with
    | some (sName, uName) => ((if unsigned then uName else sName), cs "Int")
    | none =>
      if searchToks floatingAlts t then (cs "Float", cs "Float")
      else if searchToks enumAlts t then (cs "Enum", cs "Enum")
      else if searchToks textVaryingAlts t then (cs "VARCHAR", cs "Text")
      else if searchToks textFixedAlts t then (cs "CHAR", cs "Text")
      else if searchToks booleanAlts t then (cs "Boolean", cs "Boolean")
      else if searchToks dateTimeAlts t then (cs "Timestamp", cs "DateTime")
      else if searchToks binaryAlts t then (cs "Binary", cs "Binary")
      else if searchToks jsonAlts t then (cs "JSON", cs "JSON")
      else if searchToks uuidAlts t then (cs "UUID", cs "Int")
      else if searchToks xmlAlts t then (cs "XML", cs "XML")
      else (cs "OTHER", cs "OTHER"))

/-- `unify_type` from `src/src/sql_analysis/tools/sql_types.py`. The argument
models Python's `raw_type: str` that may be `None`; the result is `none`
exactly when the Python function raises (the `t[0]` on an empty string). -/
def unify_type : Option (List Char) → Option (List Char × List Char)
  | none => some (cs "OTHER", cs "OTHER")
  | some raw =>
    if pyStrip (pyLower raw) = cs "array" then some (cs "ARRAY", cs "ARRAY")
    else
      let t := pyLower (pyStrip raw)
      if t = cs "number" || t = cs "numeric" || t = cs "decimal" then some (t, cs "Int")
      else if csub (cs "number") t || csub (cs "decimal") t then
        match findPrec t with
        | some (p, sc) =>
          let scale := sc.getD (cs "0")
          let t2 := cs "number(" ++ p ++ cs "," ++ scale ++ cs ")"
          some (t2, if scale = cs "0" then cs "Int" else cs "Float")
        | none => unifyTail t
      else unifyTail t

/-! ## Dialect Normalizer: `prepare_sql_statically` from
`src/src/sql_analysis/execution/prepare_sql_for_execution.py` -/

/-- Fueled worker for Python `str.replace(p, q)`: scan left to right,
replacing every non-overlapping occurrence of `p`, continuing after each
replaced span. Fuel is the input length; every step consumes at least one
character (the file only uses non-empty patterns). -/
def replAux (p q : List Char) (fuel : Nat) (s : List Char) : List Char :=
  match fuel, s with
  | _, [] => []
  | 0, s => s
  | fuel1 + 1, c :: rest =>
    if p.isPrefixOf (c :: rest) then q ++ replAux p q fuel1 ((c :: rest).drop p.length)
    else c :: replAux p q fuel1 rest

/-- Python `str.replace(p, q)` (for non-empty `p`). -/
def pyReplace (p q s : List Char) : List Char := replAux p q s.length s

/-- Head match of `limit\s+(\d+)\s*,\s*(\d+)` with `re.IGNORECASE`:
returns the replacement `limit {count} offset {offset}` and the rest of
the input after the match. The digit runs are greedy; no backtracking can
succeed for this pattern. -/
def tryLimit (s : List Char) : Option (List Char × List Char) :=
  match s with
  | c1 :: c2 :: c3 :: c4 :: c5 :: r5 =>
    if lowerChar c1 = 'l' && lowerChar c2 = 'i' && lowerChar c3 = 'm'
        && lowerChar c4 = 'i' && lowerChar c5 = 't' then
      let sp1 := r5.takeWhile pyIsSpace
      let r6 := r5.dropWhile pyIsSpace
      if sp1 = [] then none
      else
        let d1 := r6.takeWhile isDigitC
        let r7 := r6.dropWhile isDigitC
        if d1 = [] then none
        else
          let r8 := r7.dropWhile pyIsSpace
          match r8 with
          | ',' :: r9 =>
            let r10 := r9.dropWhile pyIsSpace
            let d2 := r10.takeWhile isDigitC
            let r11 := r10.dropWhile isDigitC
            if d2 = [] then none
            else some (cs "limit " ++ d2 ++ cs " offset " ++ d1, r11)
          | _ => none
    else none
  | _ => none

/-- Head match of `rand\s*\(\s*\)` with `re.IGNORECASE` (without the leading
`\b`, which the scanner checks): returns the rest after the match. -/
def tryRand (s : List Char) : Option (List Char) :=
  match s with
  | c1 :: c2 :: c3 :: c4 :: r4 =>
    if lowerChar c1 = 'r' && lowerChar c2 = 'a' && lowerChar c3 = 'n'
        && lowerChar c4 = 'd' then
      let r5 := r4.dropWhile pyIsSpace
      match r5 with
      | '(' :: r6 =>
        let r7 := r6.dropWhile pyIsSpace
        match r7 with
        | ')' :: r8 => some r8
        | _ => none
      | _ => none
    else none
  | _ => none

/-- Head match of `#\{(\w+)\}`: returns the `:`-rewritten replacement and
the rest after the match. -/
def tryHash (s : List Char) : Option (List Char × List Char) :=
  match s with
  | '#' :: '{' :: r2 =>
    let w := r2.takeWhile isWordC
    let r3 := r2.dropWhile isWordC
    if w = [] then none
    else match r3 with
      | '}' :: r4 => some (':' :: w, r4)
      | _ => none
  | _ => none

/-- Head match of `\{\s*(\w+)\s*\}`: returns the `:`-rewritten replacement
and the rest after the match. -/
def tryBrace (s : List Char) : Option (List Char × List Char) :=
  match s with
  | '{' :: r1 =>
    let r2 := r1.dropWhile pyIsSpace
    let w := r2.takeWhile isWordC
    let r3 := r2.dropWhile isWordC
    if w = [] then none
    else
      let r4 := r3.dropWhile pyIsSpace
      match r4 with
      | '}' :: r5 => some (':' :: w, r5)
      | _ => none
  | _ => none

/-- Fueled `re.sub` scanner for a head matcher returning `(replacement,
rest)`: try the matcher at every position, left to right, non-overlapping. -/
def scanAux (m : List Char → Option (List Char × List Char)) (fuel : Nat)
    (s : List Char) : List Char :=
  match fuel, s with
  | _, [] => []
  | 0, s => s
  | fuel1 + 1, c :: rest =>
    match m (c :: rest) with
    | some (rep, after) => rep ++ scanAux m fuel1 after
    | none => c :: scanAux m fuel1 rest

/-- `re.sub(r'limit\s+(\d+)\s*,\s*(\d+)', replace_limit, sql, IGNORECASE)`. -/
def limitSub (s : List Char) : List Char := scanAux tryLimit s.length s

/-- Fueled scanner for `re.sub(r'\brand\s*\(\s*\)', 'random()', sql,
IGNORECASE)`; `prev` is the input character before the current position,
used for the leading word-boundary `\b` (`rand` starts with a word
character, so the boundary holds exactly when `prev` is absent or not a
word character). -/
def randAux (fuel : Nat) (prev : Option Char) (s : List Char) : List Char :=
  match fuel, s with
  | _, [] => []
  | 0, s => s
  | fuel1 + 1, c :: rest =>
    match if (match prev with | none => true | some p => !isWordC p) then
            tryRand (c :: rest) else none with
    | some after => cs "random()" ++ randAux fuel1 (some ')') after
    | none => c :: randAux fuel1 (some c) rest

/-- `re.sub(r'\brand\s*\(\s*\)', 'random()', sql, IGNORECASE)`. -/
def randSub (s : List Char) : List Char := randAux s.length none s

/-- `re.sub(r'#\{(\w+)\}', r':\1', sql)`. -/
def hashSub (s : List Char) : List Char := scanAux tryHash s.length s

/-- `re.sub(r'\{\s*(\w+)\s*\}', r':\1', sql)`. -/
def braceSub (s : List Char) : List Char := scanAux tryBrace s.length s

/-- Does the matcher fire at any position of `s`? -/
def hasScanM (m : List Char → Option (List Char × List Char)) : List Char → Bool
  | [] => false
  | c :: rest => (m (c :: rest)).isSome || hasScanM m rest

/-- Does `\brand\s*\(\s*\)` (with its leading word boundary) fire at any
position of `s`, `prev` being the character before the current position? -/
def hasRandM : Option Char → List Char → Bool
  | _, [] => false
  | prev, c :: rest =>
    ((match prev with | none => true | some p => !isWordC p)
      && (tryRand (c :: rest)).isSome)
    || hasRandM (some c) rest

/-- `prepare_sql_statically` from
`src/src/sql_analysis/execution/prepare_sql_for_execution.py`: the ordered
rewrite pipeline (backtick requoting, spaced-operator collapsing, the `! =`
replace appearing twice as in the source, date-function rename, LIMIT
offset/count rewrite, RAND rewrite, placeholder-style rewrites). -/
def prepare_sql_statically (sql : List Char) : List Char :=
  let s1 := pyReplace [btick] (cs "\"") sql
  let s2 := pyReplace (cs "> =") (cs ">=") s1
  let s3 := pyReplace (cs "< =") (cs "<=") s2
  let s4 := pyReplace (cs "! =") (cs "!=") s3
  let s5 := pyReplace (cs "! =") (cs "!=") s4
  let s6 := pyReplace (cs "= =") (cs "=") s5
  let s7 := pyReplace (cs "date_format") (cs "strftime") s6
  let s8 := limitSub s7
  let s9 := randSub s8
  let s10 := pyReplace (cs "%s") (cs ":param_name") s9
  let s11 := pyReplace (cs "%i") (cs ":param_name") s10
  let s12 := pyReplace (cs "%d") (cs ":param_name") s11
  let s13 := hashSub s12
  braceSub s13

/-- `prepare_sql_for_duckdb` from `src/src/sql_analysis/execute_queries.py`:
the older, shorter rewrite pipeline used by the batch query executor
(no `= =` collapsing and no placeholder rewrites; `! =` replaced once). -/
def prepare_sql_for_duckdb (sql : List Char) : List Char :=
  let s1 := pyReplace [btick] (cs "\"") sql
  let s2 := pyReplace (cs "> =") (cs ">=") s1
  let s3 := pyReplace (cs "< =") (cs "<=") s2
  let s4 := pyReplace (cs "! =") (cs "!=") s3
  let s5 := pyReplace (cs "date_format") (cs "strftime") s4
  let s6 := limitSub s5
  randSub s6

/-- An input tail that is a numeric comma-separated LIMIT clause, as in the
spec's example `... LIMIT 10, 5` (offset `d1`, count `d2`). -/
def limTail (d1 d2 : List Char) : List Char :=
  cs "LIMIT " ++ d1 ++ cs ", " ++ d2

/-- The tail the LIMIT rewrite actually produces for `limTail d1 d2`: the
replacement template is the lowercase `limit {count} offset {offset}`. -/
def limRT (d1 d2 : List Char) : List Char :=
  cs "limit " ++ d2 ++ cs " offset " ++ d1

/-! ## Placeholder Neutralizer and Execution Validator:
`src/src/sql_analysis/execution/mock_query.py` -/

/-- The payload of a sqloxide `Value` expression node: a parameter
placeholder (carrying its token text) or any other literal value. -/
inductive SqlVal where
  | placeholder (tok : List Char)
  | lit (tag : List Char) (payload : List Char)
deriving DecidableEq

/-- A parsed statement tree as produced by `sqloxide.parse_sql`: value
nodes and arbitrary inner nodes with children. -/
inductive SqlExpr where
  | value (v : SqlVal)
  | node (tag : List Char) (children : List SqlExpr)

/-- `visit_placeholders_turn_null`: on a `Value` node whose payload is a
`Placeholder`, rewrite the placeholder token in place to SQL `null`;
leave every other node unchanged. -/
def visit_placeholders_turn_null : SqlExpr → SqlExpr
  | .value (.placeholder _) => .value (.placeholder (cs "null"))
  | e => e

mutual

/-- Apply a visitor at every expression node of the tree (the traversal of
`sqloxide.mutate_expressions`). -/
def mapExpr (f : SqlExpr → SqlExpr) : SqlExpr → SqlExpr
  | .value v => f (.value v)
  | .node tag children => f (.node tag (mapExprs f children))

/-- Apply a visitor at every node of a list of trees. -/
def mapExprs (f : SqlExpr → SqlExpr) : List SqlExpr → List SqlExpr
  | [] => []
  | e :: es => mapExpr f e :: mapExprs f es

end

mutual

/-- Number of placeholder nodes in a tree. -/
def countPh : SqlExpr → Nat
  | .value (.placeholder _) => 1
  | .value (.lit _ _) => 0
  | .node _ children => countPhs children

/-- Number of placeholder nodes in a list of trees. -/
def countPhs : List SqlExpr → Nat
  | [] => 0
  | e :: es => countPh e + countPhs es

end

mutual

/-- The placeholder tokens of a tree, in traversal order. -/
def collectPh : SqlExpr → List (List Char)
  | .value (.placeholder tok) => [tok]
  | .value (.lit _ _) => []
  | .node _ children => collectPhs children

/-- The placeholder tokens of a list of trees. -/
def collectPhs : List SqlExpr → List (List Char)
  | [] => []
  | e :: es => collectPh e ++ collectPhs es

end

mutual

/-- Modelled: sqloxide's re-rendering of a statement tree to SQL text; a
placeholder node renders as its stored token. -/
def render : SqlExpr → List Char
  | .value (.placeholder tok) => tok
  | .value (.lit _ payload) => payload
  | .node _ children => renderChil children

/-- Render a list of children. -/
def renderChil : List SqlExpr → List Char
  | [] => []
  | e :: es => render e ++ renderChil es

end

/-- `sqloxide.mutate_expressions(parsed_query, func)`: apply the visitor
over every expression node of every parsed statement and return the list of
re-rendered SQL strings, one per statement. -/
def mutate_expressions (parsed : List SqlExpr) (f : SqlExpr → SqlExpr) :
    List (List Char) :=
  parsed.map (fun a => render (mapExpr f a))

/-- An opaque plan document (the engine's EXPLAIN output is not owned by
this design). -/
structure PlanDoc where
  data : List Char
deriving DecidableEq

/-- `MockQueryResult` from `mock_query.py`. -/
structure MockQueryResult where
  original_query : Option (List Char)
  executable_sql : Option (List Char)
  error : Option (List Char)
  logical_plan : Option PlanDoc
  logical_plan_optimized : Option PlanDoc
  physical_plan : Option PlanDoc
  successful : Bool
deriving DecidableEq

/-- The fallible external operations of the execution validator, modelled as
oracles: the sqloxide parser, the DuckDB connection's `execute` (returning
the second column of each fetched row), and `json.loads` (returning the
parsed top-level list). An `Except.error` models a raised exception. -/
structure EngineOracles where
  parse : List Char → Except (List Char) (List SqlExpr)
  exec : List Char → Except (List Char) (List (List Char))
  loadJson : List Char → Except (List Char) (List PlanDoc)

/-- The `explain_wrapper` prefix from `try_to_mock_and_execute_query`. -/
def explainWrapper : List Char :=
  cs "\n        PRAGMA explain_output = " ++ [squote] ++ cs "all" ++ [squote]
    ++ cs ";\n        SET disabled_optimizers = " ++ [squote] ++ [squote]
    ++ cs ";\n        SET disabled_optimizers = " ++ [squote]
    ++ cs "empty_result_pullup,statistics_propagation,filter_pushdown" ++ [squote]
    ++ cs ";\n        EXPLAIN (FORMAT json) "

/-- `try_to_mock_and_execute_query` from `mock_query.py`: normalize, parse,
neutralize placeholders, run the explain wrapper, and parse the three plan
documents; every exception is caught and becomes a failure result carrying
the fields assigned so far (the `tables` argument of the Python function is
unused and omitted). -/
def try_to_mock_and_execute_query (sql : List Char) (O : EngineOracles) :
    MockQueryResult :=
  let rewritten := prepare_sql_statically sql
  match O.parse rewritten with
  | .error e =>
    ⟨some sql, none, some e, none, none, none, false⟩
  | .ok ast =>
    match mutate_expressions ast visit_placeholders_turn_null with
    | [] =>
      -- `[0]` on an empty list raises IndexError
      ⟨some sql, none, some (cs "IndexError"), none, none, none, false⟩
    | nulled :: _ =>
      match O.exec (explainWrapper ++ nulled) with
      | .error e =>
        ⟨some sql, some nulled, some e, none, none, none, false⟩
      | .ok rows =>
        match rows with
        | r0 :: r1 :: r2 :: _ =>
          match O.loadJson r0 with
          | .error e => ⟨some sql, some nulled, some e, none, none, none, false⟩
          | .ok [] =>
            ⟨some sql, some nulled, some (cs "IndexError"), none, none, none, false⟩
          | .ok (j0 :: _) =>
            match O.loadJson r1 with
            | .error e =>
              ⟨some sql, some nulled, some e, some j0, none, none, false⟩
            | .ok [] =>
              ⟨some sql, some nulled, some (cs "IndexError"), some j0, none, none, false⟩
            | .ok (j1 :: _) =>
              match O.loadJson r2 with
              | .error e =>
                ⟨some sql, some nulled, some e, some j0, some j1, none, false⟩
              | .ok [] =>
                ⟨some sql, some nulled, some (cs "IndexError"), some j0, some j1, none,
                  false⟩
              | .ok (j2 :: _) =>
                ⟨some sql, some nulled, none, some j0, some j1, some j2, true⟩
        | _ =>
          -- fewer than three result rows: the row indexing raises
          ⟨some sql, some nulled, some (cs "IndexError"), none, none, none, false⟩

/-! ## Repository Orchestrator and Schema Synthesizer:
`src/src/sql_analysis/execute_queries.py` -/

/-- `base_type_to_duckdb_type` from `src/src/sql_analysis/tools/sql_types.py`. -/
def base_type_to_duckdb_type (b : List Char) : List Char :=
  if b = cs "Int" then cs "INTEGER"
  else if b = cs "Float" then cs "DOUBLE"
  else if b = cs "Text" then cs "VARCHAR"
  else if b = cs "Boolean" then cs "BOOLEAN"
  else if b = cs "DateTime" then cs "TIMESTAMP"
  else if b = cs "Binary" then cs "BLOB"
  else if b = cs "JSON" then cs "JSON"
  else if b = cs "UUID" then cs "UUID"
  else if b = cs "XML" then cs "XML"
  else if b = cs "Enum" then cs "VARCHAR"
  else if b = cs "ARRAY" then cs "ARRAY"
  else cs "OTHER"

/-- `base_type_to_example_value` from `src/src/sql_analysis/tools/sql_types.py`.
This helper (the per-category example literals of the spec's seed rows) is
defined in the source but never called by any function under `src/`. -/
def base_type_to_example_value (b : List Char) : List Char :=
  if b = cs "Int" then cs "42"
  else if b = cs "Float" then cs "3.14"
  else if b = cs "Text" then [squote] ++ cs "example text" ++ [squote]
  else if b = cs "Boolean" then cs "TRUE"
  else if b = cs "DateTime" then [squote] ++ cs "2023-10-01 12:00:00" ++ [squote]
  else if b = cs "Binary" then [squote] ++ cs "\\xDEADBEEF" ++ [squote]
  else if b = cs "JSON" then cs "\x7b\"key\": \"value\"\x7d"
  else if b = cs "UUID" then [squote] ++ cs "123e4567-e89b-12d3-a456-426614174000" ++ [squote]
  else if b = cs "XML" then cs "<root><element>value</element></root>"
  else if b = cs "Enum" then [squote] ++ cs "enum_value" ++ [squote]
  else if b = cs "ARRAY" then cs "[1, 2, 3]"
  else cs "NULL"

/-- A column row fetched from the `columns` table (id, name, base type). -/
structure ColShape where
  id : Nat
  column_name : List Char
  column_base_type : List Char
deriving DecidableEq

/-- A table (with its columns) fetched for one repository. -/
structure TabShape where
  table_id : Nat
  table_name : List Char
  columns : List ColShape
deriving DecidableEq

/-- `quote_name` from `create_tables`: replace backticks and single quotes
with double quotes, then wrap in double quotes unless already wrapped. -/
def quote_name (n : List Char) : List Char :=
  let n2 := n.map (fun c => if c = btick || c = squote then '"' else c)
  if (match n2 with | '"' :: _ => true | _ => false)
      && (match n2.getLast? with | some '"' => true | _ => false) then n2
  else '"' :: (n2 ++ [cs "\""].flatten)

/-- The fully quoted table name and the optional `CREATE SCHEMA` statement:
a dotted table name is split once at the first dot into schema and name. -/
def quotedNameAndSchema (table_name : List Char) : List Char × Option (List Char) :=
  if '.' ∈ table_name then
    let schema_name := table_name.takeWhile (fun c => c ≠ '.')
    let rest := (table_name.dropWhile (fun c => c ≠ '.')).drop 1
    (quote_name schema_name ++ cs "." ++ quote_name rest,
     some (cs "CREATE SCHEMA IF NOT EXISTS " ++ quote_name schema_name))
  else (quote_name table_name, none)

/-- The `CREATE TABLE IF NOT EXISTS` statement built by `create_tables`
(exact f-string whitespace), before `prepare_sql_for_duckdb` is applied. -/
def createTableStmtRaw (qname : List Char) (columns : List ColShape) : List Char :=
  cs "\n                 CREATE TABLE IF NOT EXISTS " ++ qname ++ cs " (" ++
    (List.intercalate (cs ",\n")
      (columns.map (fun c =>
        quote_name c.column_name ++ cs " " ++ base_type_to_duckdb_type c.column_base_type)))
    ++ cs ")"

/-- The statement actually executed against the sandbox for one table. -/
def createTableStmt (qname : List Char) (columns : List ColShape) : List Char :=
  prepare_sql_for_duckdb (createTableStmtRaw qname columns)

/-- Modelled DuckDB sandbox state: the created schemas, and each created
table's fully quoted name with its number of rows. `create_tables` executes
only `CREATE SCHEMA IF NOT EXISTS` and `CREATE TABLE IF NOT EXISTS`
statements — no `INSERT` — so tables are created with zero rows. -/
structure Sandbox where
  schemas : List (List Char)
  tables : List (List Char × Nat)
deriving DecidableEq

/-- Execute `CREATE SCHEMA IF NOT EXISTS` on the sandbox model. -/
def execCreateSchema (sb : Sandbox) (name : List Char) : Sandbox :=
  if name ∈ sb.schemas then sb else ⟨sb.schemas ++ [name], sb.tables⟩

/-- Execute `CREATE TABLE IF NOT EXISTS` on the sandbox model: an absent
table is created empty. -/
def execCreateTable (sb : Sandbox) (qname : List Char) : Sandbox :=
  if (sb.tables.find? (fun p => p.1 = qname)).isSome then sb
  else ⟨sb.schemas, sb.tables ++ [(qname, 0)]⟩

/-- `COUNT(*)` against a sandbox table. -/
def rowCount (sb : Sandbox) (qname : List Char) : Option Nat :=
  (sb.tables.find? (fun p => p.1 = qname)).map Prod.snd

/-- A materialized `Table` object (`Table(table_id, complete_quoted_table_name,
columns)`). -/
structure MatTable where
  table_id : Nat
  table_name : List Char
  columns : List ColShape
deriving DecidableEq

/-- One `error_df` row of type `table_creation`. -/
structure SchemaErr where
  repo_id : Nat
  table_name : List Char
  sql : List Char
deriving DecidableEq

/-- The fully quoted name of one table shape. -/
def qnameOf (t : TabShape) : List Char := (quotedNameAndSchema t.table_name).1

/-- The `CREATE SCHEMA` statement of one table shape, when its name is dotted. -/
def schemaStmtOf (t : TabShape) : Option (List Char) := (quotedNameAndSchema t.table_name).2

/-- The prepared `CREATE TABLE` statement of one table shape. -/
def ctStmtOf (t : TabShape) : List Char := createTableStmt (qnameOf t) t.columns

/-- The materialized `Table` object of one table shape. -/
def matOf (t : TabShape) : MatTable := ⟨t.table_id, qnameOf t, t.columns⟩

/-- The `error_df` row recorded when one table's `CREATE TABLE` fails. -/
def errOf (repo_id : Nat) (t : TabShape) : SchemaErr := ⟨repo_id, qnameOf t, ctStmtOf t⟩

/-- Worker for `create_tables`: `fail` is the engine oracle telling which
executed DDL statements raise. The `CREATE SCHEMA` statement is executed
outside the `try` block in the source, so its failure escapes as
`Except.error`; a `CREATE TABLE` failure is caught, recorded, and only skips
the current table. Returns (materialized tables, schema errors, successful
count, failed count, sandbox). -/
def create_tables_go (repo_id : Nat) (fail : List Char → Bool) :
    List TabShape → Sandbox →
    Except (List Char) (List MatTable × List SchemaErr × Nat × Nat × Sandbox)
  | [], sb => .ok ([], [], 0, 0, sb)
  | t :: ts, sb =>
    let proceed : Sandbox →
        Except (List Char) (List MatTable × List SchemaErr × Nat × Nat × Sandbox) :=
      fun sb0 =>
        if fail (ctStmtOf t) then
          match create_tables_go repo_id fail ts sb0 with
          | .error e => .error e
          | .ok (mats, errs, ns, nf, sb') =>
            .ok (mats, errOf repo_id t :: errs, ns, nf + 1, sb')
        else
          let sb1 := execCreateTable sb0 (qnameOf t)
          match create_tables_go repo_id fail ts sb1 with
          | .error e => .error e
          | .ok (mats, errs, ns, nf, sb') =>
            .ok (matOf t :: mats, errs, ns + 1, nf, sb')
    match schemaStmtOf t with
    | some stmt =>
      if fail stmt then .error stmt
      else proceed (execCreateSchema sb
        (quote_name (t.table_name.takeWhile (fun c => c ≠ '.'))))
    | none => proceed sb

/-- `create_tables` for one repository, starting from a fresh sandbox. -/
def create_tables (repo_id : Nat) (shapes : List TabShape) (fail : List Char → Bool) :
    Except (List Char) (List MatTable × List SchemaErr × Nat × Nat × Sandbox) :=
  create_tables_go repo_id fail shapes ⟨[], []⟩

/-- One `error_df` row of type `query_execution`. -/
structure QErr where
  repo_id : Nat
  query_id : Nat
  sql : List Char
deriving DecidableEq

/-- Worker for `execute_queries`: per query, prepare the SQL, execute it
against the sandbox (oracle `ok`), and on success insert
`(n_sucessful_so_far + n_sucessful + 1, query_id)` into `executable_queries`;
on failure record an error row. Accumulates (records, n_sucessful, n_failed,
errors). -/
def execute_queries_go (repo_id : Nat) (so_far : Nat) (ok : List Char → Bool) :
    List (Nat × List Char) → Nat → Nat → List (Nat × Nat) → List QErr →
    List (Nat × Nat) × Nat × Nat × List QErr
  | [], nSucc, nFail, recs, errs => (recs, nSucc, nFail, errs)
  | (qid, sql) :: rest, nSucc, nFail, recs, errs =>
    let prepared := prepare_sql_for_duckdb sql
    if ok prepared then
      execute_queries_go repo_id so_far ok rest (nSucc + 1) nFail
        (recs ++ [(so_far + nSucc + 1, qid)]) errs
    else
      execute_queries_go repo_id so_far ok rest nSucc (nFail + 1) recs
        (errs ++ [⟨repo_id, qid, prepared⟩])

/-- `execute_queries` from `src/src/sql_analysis/execute_queries.py`. -/
def execute_queries (repo_id : Nat) (queries : List (Nat × List Char))
    (ok : List Char → Bool) (n_sucessful_so_far : Nat) :
    List (Nat × Nat) × Nat × Nat × List QErr :=
  execute_queries_go repo_id n_sucessful_so_far ok queries 0 0 [] []

/-- `use_keys` from `src/src/sql_analysis/load_schemapile_json_to_ddb.py`. -/
def use_keys : Bool := false

/-- `primary_key()` from `load_schemapile_json_to_ddb.py`. -/
def primary_key : List Char := if use_keys then cs "PRIMARY KEY" else cs ""

/-- `foreign_key(table, column)` from `load_schemapile_json_to_ddb.py`. -/
def foreign_key (table col : List Char) : List Char :=
  if use_keys then cs "REFERENCES " ++ table ++ cs "(" ++ col ++ cs ")" else cs ""

/-- The `CREATE OR REPLACE TABLE executable_queries` statement built by
`iterate_through_repos` (exact f-string whitespace). -/
def executable_queries_ddl : List Char :=
  cs "\n        CREATE OR REPLACE TABLE executable_queries (\n            id BIGINT "
    ++ primary_key
    ++ cs ",\n            query_id BIGINT " ++ foreign_key (cs "queries") (cs "id")
    ++ cs "\n        )\n    "

/-- A concrete example table shape (`users(id Int, name Text)`). -/
def usersShape : TabShape :=
  ⟨1, cs "users", [⟨1, cs "id", cs "Int"⟩, ⟨2, cs "name", cs "Text"⟩]⟩

/-- A concrete dot-qualified table shape whose synthesis emits a
`CREATE SCHEMA` statement. -/
def dottedShape : TabShape := ⟨2, cs "sch.t2", [⟨3, cs "a", cs "Int"⟩]⟩

/-- An engine behaviour where exactly the `CREATE SCHEMA` statement of
`dottedShape` raises. -/
def schemaFailOracle : List Char → Bool :=
  fun s => s = cs "CREATE SCHEMA IF NOT EXISTS " ++ quote_name (cs "sch")

/-- An engine behaviour where exactly the `CREATE TABLE` statement of
`dottedShape` raises. -/
def tableFailOracle : List Char → Bool := fun s => s = ctStmtOf dottedShape

/-- The propagated exception of a computation, when it raised. -/
def errPayload {α : Type} : Except (List Char) α → Option (List Char)
  | .error e => some e
  | .ok _ => none

instance {ε α : Type} [DecidableEq ε] [DecidableEq α] : DecidableEq (Except ε α) :=
  fun a b =>
    match a, b with
    | .error e, .error f =>
      if h : e = f then isTrue (by rw [h]) else isFalse (by intro hh; cases hh; exact h rfl)
    | .ok x, .ok y =>
      if h : x = y then isTrue (by rw [h]) else isFalse (by intro hh; cases hh; exact h rfl)
    | .error _, .ok _ => isFalse (by intro hh; cases hh)
    | .ok _, .error _ => isFalse (by intro hh; cases hh)

/-- One repository's input to the orchestrator: its id, inferred table
shapes, and candidate SELECT statements. -/
structure RepoInput where
  repo_id : Nat
  shapes : List TabShape
  queries : List (Nat × List Char)

/-- Worker for `iterate_through_repos`: per repository, open a fresh sandbox,
synthesize the schema, then validate the queries, threading the process-wide
`n_sucessful`/`n_failed` counters; a `create_tables` exception propagates. -/
def iterate_go (fail ok : List Char → Bool) :
    List RepoInput → Nat → Nat → List (Nat × Nat) → List SchemaErr → List QErr →
    Except (List Char) (List (Nat × Nat) × Nat × Nat × List SchemaErr × List QErr)
  | [], nSucc, nFail, recs, serrs, qerrs => .ok (recs, nSucc, nFail, serrs, qerrs)
  | r :: rs, nSucc, nFail, recs, serrs, qerrs =>
    match create_tables r.repo_id r.shapes fail with
    | .error e => .error e
    | .ok (_, serrs1, _, _, _) =>
      match execute_queries r.repo_id r.queries ok nSucc with
      | (recs1, ns1, nf1, qerrs1) =>
        iterate_go fail ok rs (nSucc + ns1) (nFail + nf1) (recs ++ recs1)
          (serrs ++ serrs1) (qerrs ++ qerrs1)

/-- `iterate_through_repos` (per-repository loop body; the oracles `fail` and
`ok` model the sandbox engine's verdict on DDL and on prepared queries). -/
def iterate_through_repos (repos : List RepoInput) (fail ok : List Char → Bool) :
    Except (List Char) (List (Nat × Nat) × Nat × Nat × List SchemaErr × List QErr) :=
  iterate_go fail ok repos 0 0 [] [] []

/-- A concrete two-repository run used as the C8 witness. -/
def twoRepos : List RepoInput :=
  [⟨1, [], [(5, cs "a"), (6, cs "b")]⟩, ⟨2, [], [(7, cs "c")]⟩]

/-- An engine behaviour where exactly the prepared query `b` fails. -/
def queryBFails : List Char → Bool :=
  fun s => s ≠ prepare_sql_for_duckdb (cs "b")

/-! ## Lemmas about the character primitives -/

theorem upperLower_fact : ∀ p ∈ upperLower,
    lowerChar p.2 = p.2 ∧ pyIsSpace p.2 = false ∧ pyIsSpace p.1 = false := by decide

theorem lowerChar_idem (c : Char) : lowerChar (lowerChar c) = lowerChar c := by
  unfold lowerChar
  cases h : upperLower.find? (fun p => p.1 = c) with
  | none => rw [h]
  | some p =>
    have hm := List.mem_of_find?_eq_some h
    have := (upperLower_fact p hm).1
    unfold lowerChar at this
    exact this

theorem pyIsSpace_lowerChar (c : Char) : pyIsSpace (lowerChar c) = pyIsSpace c := by
  unfold lowerChar
  cases h : upperLower.find? (fun p => p.1 = c) with
  | none => rfl
  | some p =>
    have hm := List.mem_of_find?_eq_some h
    have hp := List.find?_some h
    simp only [decide_eq_true_eq] at hp
    rw [(upperLower_fact p hm).2.1, ← hp, (upperLower_fact p hm).2.2]

theorem pyLower_idem (l : List Char) : pyLower (pyLower l) = pyLower l := by
  unfold pyLower
  rw [List.map_map]
  apply List.map_congr_left
  intro c _
  exact lowerChar_idem c

theorem space_comp_lower : (pyIsSpace ∘ lowerChar) = pyIsSpace := by
  funext c
  simp only [Function.comp_apply, pyIsSpace_lowerChar]

theorem dropWhile_space_lower (l : List Char) :
    (pyLower l).dropWhile pyIsSpace = pyLower (l.dropWhile pyIsSpace) := by
  unfold pyLower
  rw [List.dropWhile_map, space_comp_lower]

theorem strip_lower_comm (l : List Char) :
    pyStrip (pyLower l) = pyLower (pyStrip l) := by
  unfold pyStrip
  rw [dropWhile_space_lower]
  unfold pyLower
  rw [← List.map_reverse, List.dropWhile_map, space_comp_lower, ← List.map_reverse]

/-! ## List infrastructure for the rewrite-pipeline proofs -/

theorem infix_app_right {X A : List Char} (B : List Char) (h : X <:+: A) :
    X <:+: A ++ B := by
  rcases h with ⟨u, v, huv⟩
  exact ⟨u, v ++ B, by rw [← huv]; simp⟩

theorem infix_app_left {X B : List Char} (A : List Char) (h : X <:+: B) :
    X <:+: A ++ B := by
  rcases h with ⟨u, v, huv⟩
  exact ⟨A ++ u, v, by rw [← huv]; simp⟩

theorem pfx_append_split (X : List Char) :
    ∀ (A B : List Char), X <+: A ++ B → X <+: A ∨ (A <+: X ∧ X.drop A.length <+: B) := by
  intro A
  induction A generalizing X with
  | nil => intro B h; exact Or.inr ⟨List.nil_prefix, by simpa using h⟩
  | cons a A' ih =>
    intro B h
    cases X with
    | nil => exact Or.inl List.nil_prefix
    | cons x X' =>
      rw [List.cons_append, List.cons_prefix_cons] at h
      obtain ⟨rfl, h2⟩ := h
      rcases ih X' B h2 with h3 | ⟨h3, h4⟩
      · exact Or.inl (List.cons_prefix_cons.mpr ⟨rfl, h3⟩)
      · exact Or.inr ⟨List.cons_prefix_cons.mpr ⟨rfl, h3⟩, by simpa using h4⟩

theorem infix_append_split (X : List Char) :
    ∀ (A B : List Char), X <:+: A ++ B →
      X <:+: A ∨ X <:+: B ∨
      ∃ X₁ X₂, X = X₁ ++ X₂ ∧ X₁ ≠ [] ∧ X₂ ≠ [] ∧ X₁ <:+ A ∧ X₂ <+: B := by
  intro A
  induction A generalizing X with
  | nil => intro B h; exact Or.inr (Or.inl (by simpa using h))
  | cons a A' ih =>
    intro B h
    rw [List.cons_append] at h
    rcases List.infix_cons_iff.mp h with hpfx | hlater
    · rcases pfx_append_split X (a :: A') B hpfx with h1 | ⟨h1, h2⟩
      · exact Or.inl h1.isInfix
      · by_cases hX2 : X.drop (a :: A').length = []
        · have hlen2 : X.length ≤ (a :: A').length := by
            have := List.drop_eq_nil_iff.mp hX2
            omega
          have heq : a :: A' = X := h1.eq_of_length (Nat.le_antisymm h1.length_le hlen2)
          rw [← heq]
          exact Or.inl (List.infix_refl _)
        · refine Or.inr (Or.inr ⟨a :: A', X.drop (a :: A').length, ?_, by simp, hX2,
            List.suffix_refl _, h2⟩)
          have := List.prefix_iff_eq_take.mp h1
          conv_lhs => rw [← List.take_append_drop (a :: A').length X]
          rw [← this]
    · rcases ih X B hlater with h1 | h2 | ⟨X₁, X₂, rfl, hne1, hne2, hs, hp⟩
      · exact Or.inl (h1.trans ⟨[a], [], by simp⟩)
      · exact Or.inr (Or.inl h2)
      · exact Or.inr (Or.inr ⟨X₁, X₂, rfl, hne1, hne2,
          hs.trans (List.suffix_cons a A'), hp⟩)

theorem not_ifx_of_mem_not_mem {X s : List Char} {c : Char} (hc : c ∈ X)
    (h : c ∉ s) : ¬ X <:+: s :=
  fun h' => h (h'.subset hc)

theorem head_of_pfx {X v : List Char} (h : X <+: v) (hX : X ≠ []) :
    v.head? = X.head? := by
  cases X with
  | nil => exact absurd rfl hX
  | cons x X' =>
    rcases h with ⟨t, ht⟩
    rw [← ht]
    rfl

theorem ifx_of_sfx_ifx {X s t : List Char} (h1 : X <:+: s) (h2 : s <:+ t) :
    X <:+: t := h1.trans h2.isInfix

/-! ## Generic lemmas about the fueled `str.replace` scanner -/

theorem replAux_id (p q : List Char) :
    ∀ (fuel : Nat) (s : List Char), s.length ≤ fuel →
      (∀ v, v <:+ s → ¬ p <+: v) → replAux p q fuel s = s := by
  intro fuel
  induction fuel with
  | zero =>
    intro s hs _
    interval_cases h : s.length
    rw [List.length_eq_zero] at h
    subst h
    rfl
  | succ fuel1 ih =>
    intro s hs hn
    cases s with
    | nil => rfl
    | cons c rest =>
      have hnp : p.isPrefixOf (c :: rest) = false := by
        by_contra hcon
        exact hn (c :: rest) (List.suffix_refl _)
          (List.isPrefixOf_iff_prefix.mp (by revert hcon; cases p.isPrefixOf (c :: rest) <;> simp))
      simp only [replAux, hnp, Bool.false_eq_true, if_false, List.cons.injEq, true_and]
      exact ih rest (by simpa using Nat.le_of_succ_le_succ (by simpa using hs))
        (fun v hv => hn v (hv.trans (List.suffix_cons c rest)))

theorem replAux_pfx_reflect (p q : List Char) (hq : q ≠ []) :
    ∀ (fuel : Nat) (s X' : List Char), X' ≠ [] →
      (∀ c ∈ X', q.head? ≠ some c) →
      X' <+: replAux p q fuel s → X' <+: s := by
  intro fuel
  induction fuel with
  | zero =>
    intro s X' _ _ h
    cases s with
    | nil => exact h
    | cons c rest => exact h
  | succ fuel1 ih =>
    intro s X' hX' hq' h
    cases s with
    | nil => exact h
    | cons c rest =>
      by_cases hp : p.isPrefixOf (c :: rest) = true
      · rw [replAux, if_pos hp] at h
        exfalso
        cases X' with
        | nil => exact hX' rfl
        | cons x X'' =>
          have := head_of_pfx h (by simp)
          cases q with
          | nil => exact hq rfl
          | cons qh qt =>
            simp only [List.cons_append, List.head?_cons, Option.some.injEq] at this
            exact hq' x (by simp) (by simp [this])
      · rw [replAux, if_neg hp] at h
        cases X' with
        | nil => exact absurd rfl hX'
        | cons x X'' =>
          rw [List.cons_prefix_cons] at h
          obtain ⟨rfl, h2⟩ := h
          by_cases hX'' : X'' = []
          · subst hX''
            exact List.cons_prefix_cons.mpr ⟨rfl, List.nil_prefix⟩
          · exact List.cons_prefix_cons.mpr ⟨rfl,
              ih rest X'' hX'' (fun d hd => hq' d (by simp [hd])) h2⟩

theorem replAux_ifx_reflect (p q X : List Char) (hq : q ≠ []) (hX : X ≠ [])
    (h1 : ¬ X <:+: q)
    (h2 : ∀ X₁ X₂, X = X₁ ++ X₂ → X₁ ≠ [] → X₂ ≠ [] → ¬ X₁ <:+ q)
    (h3 : ∀ c ∈ X.tail, q.head? ≠ some c) :
    ∀ (fuel : Nat) (s : List Char), ¬ X <:+: s → ¬ X <:+: replAux p q fuel s := by
  intro fuel
  induction fuel with
  | zero =>
    intro s hns h
    cases s with
    | nil => exact hns h
    | cons c rest => exact hns h
  | succ fuel1 ih =>
    intro s hns h
    cases s with
    | nil => exact hns h
    | cons c rest =>
      by_cases hp : p.isPrefixOf (c :: rest) = true
      · rw [replAux, if_pos hp] at h
        rcases infix_append_split X q _ h with hin | hin | ⟨X₁, X₂, rfl, hne1, hne2, hs, hpf⟩
        · exact h1 hin
        · have hdrop : ¬ X <:+: (c :: rest).drop p.length :=
            fun hcon => hns (ifx_of_sfx_ifx hcon (List.drop_suffix _ _))
          exact ih _ hdrop hin
        · exact h2 X₁ X₂ rfl hne1 hne2 hs
      · rw [replAux, if_neg hp] at h
        rcases List.infix_cons_iff.mp h with hpfx | hlater
        · cases X with
          | nil => exact hX rfl
          | cons x Xt =>
            rw [List.cons_prefix_cons] at hpfx
            obtain ⟨rfl, htail⟩ := hpfx
            by_cases hXt : Xt = []
            · subst hXt
              exact hns ⟨[], rest, rfl⟩
            · have := replAux_pfx_reflect p q hq fuel1 rest Xt hXt h3 htail
              exact hns (List.IsPrefix.isInfix (List.cons_prefix_cons.mpr ⟨rfl, this⟩))
        · have hrest : ¬ X <:+: rest :=
            fun hcon => hns (hcon.trans ⟨[c], [], by simp⟩)
          exact ih rest hrest hlater

theorem replAux_removes (p q : List Char) (hq : q ≠ []) (hp : p ≠ [])
    (h1 : ¬ p <:+: q)
    (h2 : ∀ X₁ X₂, p = X₁ ++ X₂ → X₁ ≠ [] → X₂ ≠ [] → ¬ X₁ <:+ q)
    (h3 : ∀ c ∈ p.tail, q.head? ≠ some c) :
    ∀ (fuel : Nat) (s : List Char), s.length ≤ fuel →
      ¬ p <:+: replAux p q fuel s := by
  intro fuel
  induction fuel with
  | zero =>
    intro s hs
    interval_cases h : s.length
    rw [List.length_eq_zero] at h
    subst h
    intro hcon
    rcases hcon with ⟨u, v, huv⟩
    simp only [replAux] at huv
    rcases List.append_eq_nil.mp huv with ⟨hu, hv⟩
    rcases List.append_eq_nil.mp hu with ⟨-, hpnil⟩
    exact hp hpnil
  | succ fuel1 ih =>
    intro s hs h
    cases s with
    | nil =>
      rcases h with ⟨u, v, huv⟩
      simp only [replAux] at huv
      rcases List.append_eq_nil.mp huv with ⟨hu, -⟩
      rcases List.append_eq_nil.mp hu with ⟨-, hpnil⟩
      exact hp hpnil
    | cons c rest =>
      by_cases hpf : p.isPrefixOf (c :: rest) = true
      · rw [replAux, if_pos hpf] at h
        rcases infix_append_split p q _ h with hin | hin | ⟨X₁, X₂, heq, hne1, hne2, hsx, hpx⟩
        · exact h1 hin
        · exact ih _ (by
            have hplen : 0 < p.length := List.length_pos.mpr hp
            simp only [List.length_drop]
            omega) hin
        · exact h2 X₁ X₂ heq hne1 hne2 hsx
      · rw [replAux, if_neg hpf] at h
        have hnotp : ¬ p <+: (c :: rest) := by
          intro hcon
          rw [List.isPrefixOf_iff_prefix.mpr hcon] at hpf
          exact hpf rfl
        rcases List.infix_cons_iff.mp h with hpfx | hlater
        · cases hpcase : p with
          | nil => exact hp hpcase
          | cons x Xt =>
            subst hpcase
            rw [List.cons_prefix_cons] at hpfx
            obtain ⟨rfl, htail⟩ := hpfx
            by_cases hXt : Xt = []
            · subst hXt
              exact hnotp ⟨rest, rfl⟩
            · have := replAux_pfx_reflect _ q hq fuel1 rest Xt hXt h3 htail
              exact hnotp (List.cons_prefix_cons.mpr ⟨rfl, this⟩)
        · exact ih rest (by simp at hs; omega) hlater

theorem replAux_append (p q T : List Char) (hp : p ≠ [])
    (hT : ∀ v, v <:+ T → ¬ p <+: v)
    (hcross : ∀ k, 0 < k → k < p.length → ¬ (p.drop k <+: T)) :
    ∀ (fuel : Nat) (u : List Char), (u ++ T).length ≤ fuel →
      ∃ u', replAux p q fuel (u ++ T) = u' ++ T := by
  intro fuel
  induction fuel with
  | zero =>
    intro u hu
    simp only [List.length_append] at hu
    have hu0 : u = [] := List.length_eq_zero.mp (by omega)
    have hT0 : T = [] := List.length_eq_zero.mp (by omega)
    subst hu0; subst hT0
    exact ⟨[], rfl⟩
  | succ fuel1 ih =>
    intro u hu
    cases u with
    | nil =>
      refine ⟨[], ?_⟩
      simp only [List.nil_append]
      exact replAux_id p q _ T (by simpa using hu) hT
    | cons c u' =>
      by_cases hpf : p.isPrefixOf (c :: u' ++ T) = true
      · have hple : p.length ≤ (c :: u').length := by
          by_contra hgt
          push_neg at hgt
          have hpp : p <+: (c :: u') ++ T := List.isPrefixOf_iff_prefix.mp hpf
          rcases pfx_append_split p (c :: u') T hpp with hin | ⟨hin, hdrop⟩
          · exact absurd (hin.length_le) (by omega)
          · exact hcross (c :: u').length (by simp) (by omega) hdrop
        rw [List.cons_append, replAux, if_pos (by simpa using hpf)]
        rw [← List.cons_append, List.drop_append_of_le_length hple]
        obtain ⟨u'', hu''⟩ := ih ((c :: u').drop p.length)
          (by
            have hplen : 0 < p.length := List.length_pos.mpr hp
            simp only [List.length_append, List.length_drop] at *
            omega)
        rw [hu'']
        exact ⟨q ++ u'', by simp⟩
      · rw [List.cons_append, replAux, if_neg (by simpa using hpf)]
        obtain ⟨u'', hu''⟩ := ih u' (by simp at hu ⊢; omega)
        rw [hu'']
        exact ⟨c :: u'', rfl⟩

/-! ## Character-class and matcher-support lemmas -/

theorem head?_mem_self {l : List Char} {a : Char} (h : l.head? = some a) : a ∈ l := by
  cases l with
  | nil => simp at h
  | cons x t =>
    simp only [List.head?_cons, Option.some.injEq] at h
    subst h
    simp

theorem getLast?_mem_self {l : List Char} {a : Char} (h : l.getLast? = some a) :
    a ∈ l := by
  induction l with
  | nil => simp at h
  | cons x t ih =>
    cases t with
    | nil =>
      simp only [List.getLast?_singleton, Option.some.injEq] at h
      subst h
      simp
    | cons y t' =>
      rw [List.getLast?_cons_cons] at h
      simp [ih h]

theorem sfx_getLast? {v s : List Char} (h : v <:+ s) (hv : v ≠ []) :
    s.getLast? = v.getLast? := by
  rcases h with ⟨w, rfl⟩
  exact List.getLast?_append_of_ne_nil _ hv

theorem takeWhile_all_app (p : Char → Bool) (A B : List Char)
    (hA : ∀ c ∈ A, p c = true) (hB : ∀ b, B.head? = some b → p b = false) :
    (A ++ B).takeWhile p = A ∧ (A ++ B).dropWhile p = B := by
  induction A with
  | nil =>
    cases B with
    | nil => exact ⟨rfl, rfl⟩
    | cons b B' => simp [List.takeWhile_cons, List.dropWhile_cons, hB b rfl]
  | cons a A' ih =>
    have ha : p a = true := hA a (by simp)
    have := ih (fun c hc => hA c (by simp [hc]))
    simp [List.takeWhile_cons, List.dropWhile_cons, ha, this.1, this.2]

theorem digit_not_space {c : Char} (h : isDigitC c = true) : pyIsSpace c = false := by
  cases hsp : pyIsSpace c
  · rfl
  · exfalso
    simp only [pyIsSpace, Bool.or_eq_true, decide_eq_true_eq] at hsp
    rcases hsp with ((((h1 | h1) | h1) | h1) | h1) | h1 <;> subst h1 <;> exact absurd h (by decide)

theorem digit_lower {c : Char} (h : isDigitC c = true) : lowerChar c = c := by
  have tbl : ∀ p ∈ upperLower, isDigitC p.1 = false := by decide
  cases hf : upperLower.find? (fun p => p.1 = c) with
  | none => simp [lowerChar, hf]
  | some pr =>
    exfalso
    have h1 := List.find?_some hf
    have h2 := List.mem_of_find?_eq_some hf
    simp only [decide_eq_true_eq] at h1
    rw [← h1] at h
    exact absurd h (by rw [tbl pr h2]; simp)

theorem sfx_pfx_dead {p T : List Char} {c₀ : Char} (hc : c₀ ∈ p) (hT : c₀ ∉ T) :
    ∀ v, v <:+ T → ¬ p <+: v :=
  fun _ hv hp => hT ((hp.isInfix.trans hv.isInfix).subset hc)

theorem cross_dead_head {p : List Char} {a : Char} (hc : ∀ c ∈ p, c ≠ a)
    (t : List Char) : ∀ k, 0 < k → k < p.length → ¬ p.drop k <+: (a :: t) := by
  intro k hk0 hklt hpf
  have hne : p.drop k ≠ [] := by
    intro hcon
    have := List.drop_eq_nil_iff.mp hcon
    omega
  have hhd := head_of_pfx hpf hne
  have hmem : a ∈ p.drop k := head?_mem_self (by rw [← hhd]; rfl)
  exact hc a (List.mem_of_mem_drop hmem) rfl

theorem mem_limTail {d1 d2 : List Char} (hd1 : ∀ c ∈ d1, isDigitC c = true)
    (hd2 : ∀ c ∈ d2, isDigitC c = true) {c : Char} (hc : c ∈ limTail d1 d2) :
    c ∈ cs "LIMIT, " ∨ isDigitC c = true := by
  simp only [limTail, List.mem_append] at hc
  rcases hc with ((hc | hc) | hc) | hc
  · exact Or.inl (by simp only [cs] at hc ⊢; simp at hc ⊢; tauto)
  · exact Or.inr (hd1 c hc)
  · exact Or.inl (by simp only [cs] at hc ⊢; simp at hc ⊢; tauto)
  · exact Or.inr (hd2 c hc)

theorem mem_limRT {d1 d2 : List Char} (hd1 : ∀ c ∈ d1, isDigitC c = true)
    (hd2 : ∀ c ∈ d2, isDigitC c = true) {c : Char} (hc : c ∈ limRT d1 d2) :
    c ∈ cs "limit ofset" ∨ isDigitC c = true := by
  simp only [limRT, List.mem_append] at hc
  rcases hc with ((hc | hc) | hc) | hc
  · exact Or.inl (by simp only [cs] at hc ⊢; simp at hc ⊢; tauto)
  · exact Or.inr (hd2 c hc)
  · exact Or.inl (by simp only [cs] at hc ⊢; simp at hc ⊢; tauto)
  · exact Or.inr (hd1 c hc)

theorem tryHash_dead {v : List Char} (h : v.head? ≠ some '#') : tryHash v = none := by
  unfold tryHash
  split
  · simp_all
  · rfl

theorem tryHash_sound {s rep after : List Char} (h : tryHash s = some (rep, after)) :
    ∃ M, s = M ++ after ∧ M ≠ [] ∧ M.getLast? = some '}' := by
  unfold tryHash at h
  split at h
  next r2 =>
    simp only [] at h
    split at h
    · exact absurd h (by simp)
    · split at h
      next r4 heq3 =>
        rw [Option.some_inj] at h
        obtain ⟨hrep, hafter⟩ := Prod.mk.injEq  .. ▸ h
        refine ⟨('#' :: '{' :: r2.takeWhile isWordC) ++ ['}'], ?_, by simp,
          (List.getLast?_append_of_ne_nil _ (by simp)).trans rfl⟩
        have hr2 := List.takeWhile_append_dropWhile (p := isWordC) (l := r2)
        conv_lhs => rw [← hr2, heq3]
        simp [hafter]
      next => exact absurd h (by simp)
  next => exact absurd h (by simp)

theorem tryBrace_dead {v : List Char} (h : v.head? ≠ some '{') : tryBrace v = none := by
  unfold tryBrace
  split
  · simp_all
  · rfl

theorem tryBrace_sound {s rep after : List Char} (h : tryBrace s = some (rep, after)) :
    ∃ M, s = M ++ after ∧ M ≠ [] ∧ M.getLast? = some '}' := by
  unfold tryBrace at h
  split at h
  next r1 =>
    simp only [] at h
    split at h
    · exact absurd h (by simp)
    · split at h
      next r5 heq4 =>
        rw [Option.some_inj] at h
        obtain ⟨hrep, hafter⟩ := Prod.mk.injEq  .. ▸ h
        refine ⟨('{' :: (r1.takeWhile pyIsSpace ++
            ((r1.dropWhile pyIsSpace).takeWhile isWordC ++
             ((r1.dropWhile pyIsSpace).dropWhile isWordC).takeWhile pyIsSpace))) ++ ['}'],
          ?_, by simp, (List.getLast?_append_of_ne_nil _ (by simp)).trans rfl⟩
        have hr1 := List.takeWhile_append_dropWhile (p := pyIsSpace) (l := r1)
        have hr2 := List.takeWhile_append_dropWhile (p := isWordC)
          (l := r1.dropWhile pyIsSpace)
        have hr3 := List.takeWhile_append_dropWhile (p := pyIsSpace)
          (l := (r1.dropWhile pyIsSpace).dropWhile isWordC)
        conv_lhs => rw [← hr1, ← hr2, ← hr3, heq4]
        simp [hafter]
      next => exact absurd h (by simp)
  next => exact absurd h (by simp)

theorem tryRand_dead {v : List Char} (h : ∀ c, v.head? = some c → lowerChar c ≠ 'r') :
    tryRand v = none := by
  unfold tryRand
  split
  next c1 c2 c3 c4 r4 =>
    have hc1 := h c1 rfl
    simp [hc1]
  next => rfl

theorem tryRand_sound {s after : List Char} (h : tryRand s = some after) :
    ∃ M, s = M ++ after ∧ M ≠ [] ∧ M.getLast? = some ')' := by
  unfold tryRand at h
  split at h
  next c1 c2 c3 c4 r4 =>
    simp only [] at h
    split at h
    · split at h
      next r6 heq5 =>
        split at h
        next r8 heq7 =>
          rw [Option.some_inj] at h
          refine ⟨(c1 :: c2 :: c3 :: c4 ::
              (r4.takeWhile pyIsSpace ++ '(' :: r6.takeWhile pyIsSpace)) ++ [')'],
            ?_, by simp, (List.getLast?_append_of_ne_nil _ (by simp)).trans rfl⟩
          have hr4 := List.takeWhile_append_dropWhile (p := pyIsSpace) (l := r4)
          have hr6 := List.takeWhile_append_dropWhile (p := pyIsSpace) (l := r6)
          conv_lhs => rw [← hr4, heq5, ← hr6, heq7]
          simp [h]
        next => exact absurd h (by simp)
      next => exact absurd h (by simp)
    · exact absurd h (by simp)
  next => exact absurd h (by simp)

theorem tryLimit_sound {s rep after : List Char} (h : tryLimit s = some (rep, after)) :
    ∃ c1 c2 c3 c4 c5 rest5, s = c1 :: c2 :: c3 :: c4 :: c5 :: (rest5 ++ after) ∧
      lowerChar c2 = 'i' ∧ lowerChar c3 = 'm' ∧ lowerChar c4 = 'i' ∧ lowerChar c5 = 't' ∧
      ∀ c ∈ rest5, pyIsSpace c = true ∨ isDigitC c = true ∨ c = ',' := by
  unfold tryLimit at h
  split at h
  next c1 c2 c3 c4 c5 r5 =>
    simp only [] at h
    split at h
    next hg =>
      simp only [Bool.and_eq_true, decide_eq_true_eq] at hg
      obtain ⟨⟨⟨⟨hg1, hg2⟩, hg3⟩, hg4⟩, hg5⟩ := hg
      split at h
      · exact absurd h (by simp)
      next hsp1 =>
        split at h
        · exact absurd h (by simp)
        next hd1ne =>
          split at h
          next r9 heq8 =>
            split at h
            · exact absurd h (by simp)
            next hd2ne =>
              rw [Option.some_inj] at h
              obtain ⟨hrep, hafter⟩ := Prod.mk.injEq  .. ▸ h
              refine ⟨c1, c2, c3, c4, c5,
                r5.takeWhile pyIsSpace ++
                  ((r5.dropWhile pyIsSpace).takeWhile isDigitC ++
                    (((r5.dropWhile pyIsSpace).dropWhile isDigitC).takeWhile pyIsSpace ++
                      (',' :: (r9.takeWhile pyIsSpace ++
                        (r9.dropWhile pyIsSpace).takeWhile isDigitC)))),
                ?_, hg2, hg3, hg4, hg5, ?_⟩
              · have e1 := List.takeWhile_append_dropWhile (p := pyIsSpace) (l := r5)
                have e2 := List.takeWhile_append_dropWhile (p := isDigitC)
                  (l := r5.dropWhile pyIsSpace)
                have e3 := List.takeWhile_append_dropWhile (p := pyIsSpace)
                  (l := (r5.dropWhile pyIsSpace).dropWhile isDigitC)
                have e4 := List.takeWhile_append_dropWhile (p := pyIsSpace) (l := r9)
                have e5 := List.takeWhile_append_dropWhile (p := isDigitC)
                  (l := r9.dropWhile pyIsSpace)
                conv_lhs => rw [← e1, ← e2, ← e3, heq8, ← e4, ← e5, hafter]
                simp [List.append_assoc]
              · intro c hc
                simp only [List.mem_append, List.mem_cons] at hc
                rcases hc with hc | hc | hc | hc | hc | hc
                · exact Or.inl (List.mem_takeWhile_imp hc)
                · exact Or.inr (Or.inl (List.mem_takeWhile_imp hc))
                · exact Or.inl (List.mem_takeWhile_imp hc)
                · exact Or.inr (Or.inr hc)
                · exact Or.inl (List.mem_takeWhile_imp hc)
                · exact Or.inr (Or.inl (List.mem_takeWhile_imp hc))
          next => exact absurd h (by simp)
    next => exact absurd h (by simp)
  next => exact absurd h (by simp)

theorem tryLimit_T (d1 d2 : List Char) (h1 : d1 ≠ []) (h2 : d2 ≠ [])
    (hd1 : ∀ c ∈ d1, isDigitC c = true) (hd2 : ∀ c ∈ d2, isDigitC c = true) :
    tryLimit (limTail d1 d2) = some (limRT d1 d2, []) := by
  obtain ⟨a1, d1x, rfl⟩ : ∃ a t, d1 = a :: t := by
    cases d1 with
    | nil => exact absurd rfl h1
    | cons a t => exact ⟨a, t, rfl⟩
  obtain ⟨a2, d2x, rfl⟩ : ∃ a t, d2 = a :: t := by
    cases d2 with
    | nil => exact absurd rfl h2
    | cons a t => exact ⟨a, t, rfl⟩
  rw [show limTail (a1 :: d1x) (a2 :: d2x) =
    'L' :: 'I' :: 'M' :: 'I' :: 'T' :: ' ' ::
      ((a1 :: d1x) ++ ',' :: ' ' :: (a2 :: d2x)) from by simp [limTail, cs]]
  have e1 := takeWhile_all_app pyIsSpace [' '] ((a1 :: d1x) ++ ',' :: ' ' :: (a2 :: d2x))
    (by intro c hc; simp at hc; subst hc; decide)
    (by intro b hb; simp at hb; subst hb; exact digit_not_space (hd1 a1 (by simp)))
  have e2 := takeWhile_all_app isDigitC (a1 :: d1x) (',' :: ' ' :: (a2 :: d2x)) hd1
    (by intro b hb; simp at hb; subst hb; decide)
  have e3 : (',' :: ' ' :: (a2 :: d2x)).dropWhile pyIsSpace =
      ',' :: ' ' :: (a2 :: d2x) := by
    rw [List.dropWhile_cons_of_neg]
    simp [pyIsSpace]
  have e4 := takeWhile_all_app pyIsSpace [' '] (a2 :: d2x)
    (by intro c hc; simp at hc; subst hc; decide)
    (by intro b hb; simp at hb; subst hb; exact digit_not_space (hd2 a2 (by simp)))
  have e5 : ((a2 :: d2x) ++ ([] : List Char)).takeWhile isDigitC = a2 :: d2x ∧
      ((a2 :: d2x) ++ ([] : List Char)).dropWhile isDigitC = [] :=
    takeWhile_all_app isDigitC (a2 :: d2x) [] hd2 (by intro b hb; simp at hb)
  rw [List.append_nil] at e5
  simp only [tryLimit, List.singleton_append] at *
  rw [e1.1, e1.2, e2.1, e2.2, e3]
  simp +decide [e4.2, e5.1, e5.2, limRT]

theorem scanAux_id (m : List Char → Option (List Char × List Char)) :
    ∀ (fuel : Nat) (s : List Char), (∀ v, v <:+ s → m v = none) →
      scanAux m fuel s = s := by
  intro fuel
  induction fuel with
  | zero =>
    intro s _
    cases s with
    | nil => rfl
    | cons c rest => rfl
  | succ fuel1 ih =>
    intro s h
    cases s with
    | nil => rfl
    | cons c rest =>
      have hm := h (c :: rest) (List.suffix_refl _)
      simp only [scanAux, hm]
      rw [ih rest (fun v hv => h v (hv.trans (List.suffix_cons c rest)))]

theorem scanAux_append_keep (m : List Char → Option (List Char × List Char))
    (T : List Char) (e : Char) (he : e ∉ T)
    (hdead : ∀ v, v <:+ T → m v = none)
    (hsnd : ∀ s rep after, m s = some (rep, after) →
      ∃ M, s = M ++ after ∧ M ≠ [] ∧ M.getLast? = some e) :
    ∀ (fuel : Nat) (u : List Char), (u ++ T).length ≤ fuel →
      ∃ v, scanAux m fuel (u ++ T) = v ++ T := by
  intro fuel
  induction fuel with
  | zero =>
    intro u hu
    simp only [List.length_append] at hu
    obtain rfl : u = [] := List.length_eq_zero.mp (by omega)
    obtain rfl : T = [] := List.length_eq_zero.mp (by omega)
    exact ⟨[], rfl⟩
  | succ fuel1 ih =>
    intro u hu
    cases u with
    | nil =>
      exact ⟨[], by simpa using scanAux_id m (fuel1 + 1) T hdead⟩
    | cons c u' =>
      rw [List.cons_append]
      cases hm : m (c :: (u' ++ T)) with
      | none =>
        obtain ⟨v, hv⟩ := ih u' (by simp at hu ⊢; omega)
        refine ⟨c :: v, ?_⟩
        simp only [scanAux, hm]
        rw [hv]
        rfl
      | some pr =>
        obtain ⟨rep, after⟩ := pr
        obtain ⟨M, hM, hMne, hMlast⟩ := hsnd _ _ _ hm
        have hMpfx : M <+: (c :: u') ++ T := ⟨after, by rw [← hM]; rfl⟩
        have hlenM : (c :: (u' ++ T)).length = M.length + after.length := by
          rw [hM, List.length_append]
        rcases pfx_append_split M (c :: u') T hMpfx with hin | ⟨hin, hdrop⟩
        · obtain ⟨w, hw⟩ := hin
          have hafter : after = w ++ T := by
            have h2 : M ++ (w ++ T) = M ++ after := by
              rw [← List.append_assoc, hw, List.cons_append, ← hM]
            exact (List.append_cancel_left h2).symm
          subst hafter
          obtain ⟨v, hv⟩ := ih w (by
            have hMlen : 0 < M.length := List.length_pos.mpr hMne
            simp only [List.length_cons, List.length_append] at hlenM hu ⊢
            omega)
          refine ⟨rep ++ v, ?_⟩
          simp only [scanAux, hm]
          rw [hv, List.append_assoc]
        · by_cases h0 : M.drop (c :: u').length = []
          · have hlen2 : M.length ≤ (c :: u').length := by
              have := List.drop_eq_nil_iff.mp h0
              omega
            have hMeq : c :: u' = M :=
              hin.eq_of_length (Nat.le_antisymm hin.length_le hlen2)
            have hafter : after = T := by
              have h2 := hM
              rw [← hMeq] at h2
              exact (List.append_cancel_left
                (show (c :: u') ++ T = (c :: u') ++ after from h2)).symm
            subst hafter
            obtain ⟨v2, hv2⟩ := ih [] (by
              have hMlen : 0 < M.length := List.length_pos.mpr hMne
              simp only [List.length_cons, List.length_append, List.nil_append] at hlenM hu ⊢
              omega)
            refine ⟨rep ++ v2, ?_⟩
            simp only [scanAux, hm]
            rw [List.nil_append] at hv2
            rw [hv2, List.append_assoc]
          · exfalso
            have hlast2 : (M.drop (c :: u').length).getLast? = some e :=
              (sfx_getLast? (List.drop_suffix _ _) h0).symm.trans hMlast
            exact he (hdrop.subset (getLast?_mem_self hlast2))

theorem randAux_id :
    ∀ (fuel : Nat) (prev : Option Char) (s : List Char),
      (∀ v, v <:+ s → tryRand v = none) → randAux fuel prev s = s := by
  intro fuel
  induction fuel with
  | zero =>
    intro prev s _
    cases s with
    | nil => rfl
    | cons c rest => rfl
  | succ fuel1 ih =>
    intro prev s h
    cases s with
    | nil => rfl
    | cons c rest =>
      have hm := h (c :: rest) (List.suffix_refl _)
      have hrec := ih (some c) rest (fun v hv => h v (hv.trans (List.suffix_cons c rest)))
      cases hg : (match prev with | none => true | some p => !isWordC p) with
      | false => simp [randAux, hg, hrec]
      | true => simp [randAux, hg, hm, hrec]

theorem randAux_append_keep (T : List Char) (hpar : ')' ∉ T)
    (hdead : ∀ v, v <:+ T → tryRand v = none) :
    ∀ (fuel : Nat) (prev : Option Char) (u : List Char), (u ++ T).length ≤ fuel →
      ∃ v, randAux fuel prev (u ++ T) = v ++ T := by
  intro fuel
  induction fuel with
  | zero =>
    intro prev u hu
    simp only [List.length_append] at hu
    obtain rfl : u = [] := List.length_eq_zero.mp (by omega)
    obtain rfl : T = [] := List.length_eq_zero.mp (by omega)
    exact ⟨[], rfl⟩
  | succ fuel1 ih =>
    intro prev u hu
    cases u with
    | nil =>
      exact ⟨[], by simpa using randAux_id (fuel1 + 1) prev T hdead⟩
    | cons c u' =>
      rw [List.cons_append]
      cases hg : (match prev with | none => true | some p => !isWordC p) with
      | false =>
        obtain ⟨v, hv⟩ := ih (some c) u' (by simp at hu ⊢; omega)
        refine ⟨c :: v, ?_⟩
        simp only [randAux, hg]
        rw [hv]
        rfl
      | true =>
        cases hm : tryRand (c :: (u' ++ T)) with
        | none =>
          obtain ⟨v, hv⟩ := ih (some c) u' (by simp at hu ⊢; omega)
          refine ⟨c :: v, ?_⟩
          simp only [randAux, hg, hm]
          rw [hv]
          rfl
        | some after =>
          obtain ⟨M, hM, hMne, hMlast⟩ := tryRand_sound hm
          have hMpfx : M <+: (c :: u') ++ T := ⟨after, by rw [← hM]; rfl⟩
          have hlenM : (c :: (u' ++ T)).length = M.length + after.length := by
            rw [hM, List.length_append]
          rcases pfx_append_split M (c :: u') T hMpfx with hin | ⟨hin, hdrop⟩
          · obtain ⟨w, hw⟩ := hin
            have hafter : after = w ++ T := by
              have h2 : M ++ (w ++ T) = M ++ after := by
                rw [← List.append_assoc, hw, List.cons_append, ← hM]
              exact (List.append_cancel_left h2).symm
            subst hafter
            obtain ⟨v, hv⟩ := ih (some ')') w (by
              have hMlen : 0 < M.length := List.length_pos.mpr hMne
              simp only [List.length_cons, List.length_append] at hlenM hu ⊢
              omega)
            refine ⟨cs "random()" ++ v, ?_⟩
            have hstep : randAux (fuel1 + 1) prev (c :: (u' ++ T)) =
                cs "random()" ++ randAux fuel1 (some ')') (w ++ T) := by
              simp [randAux, hg, hm]
            rw [hstep, hv, List.append_assoc]
          · by_cases h0 : M.drop (c :: u').length = []
            · have hlen2 : M.length ≤ (c :: u').length := by
                have := List.drop_eq_nil_iff.mp h0
                omega
              have hMeq : c :: u' = M :=
                hin.eq_of_length (Nat.le_antisymm hin.length_le hlen2)
              have hafter : after = T := by
                have h2 := hM
                rw [← hMeq] at h2
                exact (List.append_cancel_left
                  (show (c :: u') ++ T = (c :: u') ++ after from h2)).symm
              rw [hafter] at hm
              refine ⟨cs "random()", ?_⟩
              have hstep : randAux (fuel1 + 1) prev (c :: (u' ++ T)) =
                  cs "random()" ++ randAux fuel1 (some ')') T := by
                simp [randAux, hg, hm]
              rw [hstep, randAux_id fuel1 (some ')') T hdead]
            · exfalso
              have hlast2 : (M.drop (c :: u').length).getLast? = some ')' :=
                (sfx_getLast? (List.drop_suffix _ _) h0).symm.trans hMlast
              exact hpar (hdrop.subset (getLast?_mem_self hlast2))

theorem scanLimit_append (d1 d2 : List Char) (h1 : d1 ≠ []) (h2 : d2 ≠ [])
    (hd1 : ∀ c ∈ d1, isDigitC c = true) (hd2 : ∀ c ∈ d2, isDigitC c = true) :
    ∀ (fuel : Nat) (u : List Char), (u ++ limTail d1 d2).length ≤ fuel →
      ∃ v, scanAux tryLimit fuel (u ++ limTail d1 d2) = v ++ limRT d1 d2 := by
  have hTcons : limTail d1 d2 =
      'L' :: 'I' :: 'M' :: 'I' :: 'T' :: ' ' :: ((d1 ++ cs ", ") ++ d2) := rfl
  have hm' : tryLimit ('L' :: 'I' :: 'M' :: 'I' :: 'T' :: ' ' :: ((d1 ++ cs ", ") ++ d2)) =
      some (limRT d1 d2, []) := tryLimit_T d1 d2 h1 h2 hd1 hd2
  intro fuel
  induction fuel with
  | zero =>
    intro u hu
    exfalso
    have hTlen : 0 < (limTail d1 d2).length := by rw [hTcons]; simp
    simp only [List.length_append] at hu
    omega
  | succ fuel1 ih =>
    intro u hu
    cases u with
    | nil =>
      refine ⟨[], ?_⟩
      rw [List.nil_append, hTcons]
      simp only [scanAux, hm']
      simp [scanAux]
    | cons c u' =>
      rw [List.cons_append]
      cases hm : tryLimit (c :: (u' ++ limTail d1 d2)) with
      | none =>
        obtain ⟨v, hv⟩ := ih u' (by simp at hu ⊢; omega)
        refine ⟨c :: v, ?_⟩
        simp only [scanAux, hm]
        rw [hv]
        rfl
      | some pr =>
        obtain ⟨rep, after⟩ := pr
        obtain ⟨c1, c2, c3, c4, c5, rest5, hs, hl2, hl3, hl4, hl5, hmem⟩ := tryLimit_sound hm
        have hM : c :: (u' ++ limTail d1 d2) =
            (c1 :: c2 :: c3 :: c4 :: c5 :: rest5) ++ after := by
          rw [hs]
          simp
        have hMpfx : (c1 :: c2 :: c3 :: c4 :: c5 :: rest5) <+: (c :: u') ++ limTail d1 d2 :=
          ⟨after, by rw [← hM]; rfl⟩
        have hlenM : (c :: (u' ++ limTail d1 d2)).length =
            (c1 :: c2 :: c3 :: c4 :: c5 :: rest5).length + after.length := by
          rw [hM, List.length_append]
        rcases pfx_append_split (c1 :: c2 :: c3 :: c4 :: c5 :: rest5) (c :: u')
            (limTail d1 d2) hMpfx with hin | ⟨hin, hdrop⟩
        · obtain ⟨w, hw⟩ := hin
          have hafter : after = w ++ limTail d1 d2 := by
            have h2 : (c1 :: c2 :: c3 :: c4 :: c5 :: rest5) ++ (w ++ limTail d1 d2) =
                (c1 :: c2 :: c3 :: c4 :: c5 :: rest5) ++ after := by
              rw [← List.append_assoc, hw, List.cons_append, ← hM]
            exact (List.append_cancel_left h2).symm
          subst hafter
          obtain ⟨v, hv⟩ := ih w (by
            simp only [List.length_cons, List.length_append] at hlenM hu ⊢
            omega)
          refine ⟨rep ++ v, ?_⟩
          simp only [scanAux, hm]
          rw [hv, List.append_assoc]
        · by_cases h0 : (c1 :: c2 :: c3 :: c4 :: c5 :: rest5).drop (c :: u').length = []
          · have hlen2 : (c1 :: c2 :: c3 :: c4 :: c5 :: rest5).length ≤ (c :: u').length := by
              have := List.drop_eq_nil_iff.mp h0
              omega
            have hMeq : c :: u' = c1 :: c2 :: c3 :: c4 :: c5 :: rest5 :=
              hin.eq_of_length (Nat.le_antisymm hin.length_le hlen2)
            have hafter : after = limTail d1 d2 := by
              have h2 := hM
              rw [← hMeq] at h2
              exact (List.append_cancel_left
                (show (c :: u') ++ limTail d1 d2 = (c :: u') ++ after from h2)).symm
            subst hafter
            obtain ⟨v2, hv2⟩ := ih [] (by
              simp only [List.length_cons, List.length_append, List.nil_append] at hlenM hu ⊢
              omega)
            refine ⟨rep ++ v2, ?_⟩
            simp only [scanAux, hm]
            rw [List.nil_append] at hv2
            rw [hv2, List.append_assoc]
          · exfalso
            generalize hn : (c :: u').length = n at h0 hdrop
            have hnpos : 0 < n := by rw [← hn]; simp
            have hhd := head_of_pfx hdrop h0
            rw [hTcons] at hhd
            simp only [List.head?_cons] at hhd
            rcases Nat.lt_or_ge n 5 with h5 | h5
            · interval_cases n
              · simp only [List.drop_succ_cons, List.drop_zero, List.head?_cons,
                  Option.some.injEq] at hhd
                rw [← hhd] at hl2
                exact absurd hl2 (by decide)
              · simp only [List.drop_succ_cons, List.drop_zero, List.head?_cons,
                  Option.some.injEq] at hhd
                rw [← hhd] at hl3
                exact absurd hl3 (by decide)
              · simp only [List.drop_succ_cons, List.drop_zero, List.head?_cons,
                  Option.some.injEq] at hhd
                rw [← hhd] at hl4
                exact absurd hl4 (by decide)
              · simp only [List.drop_succ_cons, List.drop_zero, List.head?_cons,
                  Option.some.injEq] at hhd
                rw [← hhd] at hl5
                exact absurd hl5 (by decide)
            · obtain ⟨j, rfl⟩ : ∃ j, n = 5 + j := ⟨n - 5, by omega⟩
              have hdropM : (c1 :: c2 :: c3 :: c4 :: c5 :: rest5).drop (5 + j) =
                  rest5.drop j := by
                rw [show (c1 :: c2 :: c3 :: c4 :: c5 :: rest5) =
                  [c1, c2, c3, c4, c5] ++ rest5 from rfl]
                rw [show 5 + j = ([c1, c2, c3, c4, c5] : List Char).length + j from by simp]
                exact List.drop_append j
              rw [hdropM] at hhd
              have hLmem : 'L' ∈ rest5.drop j := head?_mem_self hhd.symm
              rcases hmem 'L' (List.mem_of_mem_drop hLmem) with hx | hx | hx <;>
                revert hx <;> decide

theorem pyReplace_keep_tail (p q T : List Char) (hp : p ≠ [])
    (hT : ∀ v, v <:+ T → ¬ p <+: v)
    (hcross : ∀ k, 0 < k → k < p.length → ¬ p.drop k <+: T)
    (u : List Char) : ∃ u', pyReplace p q (u ++ T) = u' ++ T :=
  replAux_append p q T hp hT hcross (u ++ T).length u (le_refl _)

theorem limit_tail_rewrite_aux (u d1 d2 : List Char) (h1 : d1 ≠ []) (h2 : d2 ≠ [])
    (hd1 : ∀ c ∈ d1, isDigitC c = true) (hd2 : ∀ c ∈ d2, isDigitC c = true) :
    ∃ v, prepare_sql_statically (u ++ limTail d1 d2) = v ++ limRT d1 d2 := by
  have hTnot : ∀ c₀ : Char, c₀ ∉ cs "LIMIT, " → isDigitC c₀ = false →
      c₀ ∉ limTail d1 d2 := by
    intro c₀ hA hB hc
    rcases mem_limTail hd1 hd2 hc with h | h
    · exact hA h
    · simp [hB] at h
  have hRnot : ∀ c₀ : Char, c₀ ∉ cs "limit ofset" → isDigitC c₀ = false →
      c₀ ∉ limRT d1 d2 := by
    intro c₀ hA hB hc
    rcases mem_limRT hd1 hd2 hc with h | h
    · exact hA h
    · simp [hB] at h
  have hTcross : ∀ (p : List Char), (∀ c ∈ p, c ≠ 'L') →
      ∀ k, 0 < k → k < p.length → ¬ p.drop k <+: limTail d1 d2 := by
    intro p hp k hk0 hklt
    exact cross_dead_head hp
      ('I' :: 'M' :: 'I' :: 'T' :: ' ' :: ((d1 ++ cs ", ") ++ d2)) k hk0 hklt
  have hRcross : ∀ (p : List Char), (∀ c ∈ p, c ≠ 'l') →
      ∀ k, 0 < k → k < p.length → ¬ p.drop k <+: limRT d1 d2 := by
    intro p hp k hk0 hklt
    exact cross_dead_head hp
      ('i' :: 'm' :: 'i' :: 't' :: ' ' :: ((d2 ++ cs " offset ") ++ d1)) k hk0 hklt
  obtain ⟨u1, e1⟩ := pyReplace_keep_tail [btick] (cs "\"") (limTail d1 d2) (by simp)
    (sfx_pfx_dead (List.mem_singleton.mpr rfl) (hTnot btick (by decide) (by decide)))
    (by intro k hk0 hklt _; simp at hklt; omega) u
  obtain ⟨u2, e2⟩ := pyReplace_keep_tail (cs "> =") (cs ">=") (limTail d1 d2) (by decide)
    (sfx_pfx_dead (show '>' ∈ cs "> =" by decide) (hTnot '>' (by decide) (by decide)))
    (hTcross _ (by decide)) u1
  obtain ⟨u3, e3⟩ := pyReplace_keep_tail (cs "< =") (cs "<=") (limTail d1 d2) (by decide)
    (sfx_pfx_dead (show '<' ∈ cs "< =" by decide) (hTnot '<' (by decide) (by decide)))
    (hTcross _ (by decide)) u2
  obtain ⟨u4, e4⟩ := pyReplace_keep_tail (cs "! =") (cs "!=") (limTail d1 d2) (by decide)
    (sfx_pfx_dead (show '!' ∈ cs "! =" by decide) (hTnot '!' (by decide) (by decide)))
    (hTcross _ (by decide)) u3
  obtain ⟨u5, e5⟩ := pyReplace_keep_tail (cs "! =") (cs "!=") (limTail d1 d2) (by decide)
    (sfx_pfx_dead (show '!' ∈ cs "! =" by decide) (hTnot '!' (by decide) (by decide)))
    (hTcross _ (by decide)) u4
  obtain ⟨u6, e6⟩ := pyReplace_keep_tail (cs "= =") (cs "=") (limTail d1 d2) (by decide)
    (sfx_pfx_dead (show '=' ∈ cs "= =" by decide) (hTnot '=' (by decide) (by decide)))
    (hTcross _ (by decide)) u5
  obtain ⟨u7, e7⟩ := pyReplace_keep_tail (cs "date_format") (cs "strftime")
    (limTail d1 d2) (by decide)
    (sfx_pfx_dead (show 'a' ∈ cs "date_format" by decide) (hTnot 'a' (by decide) (by decide)))
    (hTcross _ (by decide)) u6
  obtain ⟨v8, e8⟩ := scanLimit_append d1 d2 h1 h2 hd1 hd2
    (u7 ++ limTail d1 d2).length u7 (le_refl _)
  have e8l : limitSub (u7 ++ limTail d1 d2) = v8 ++ limRT d1 d2 := e8
  have hRdeadRand : ∀ v, v <:+ limRT d1 d2 → tryRand v = none := by
    intro v hv
    apply tryRand_dead
    intro c hc heq
    have hcmem : c ∈ limRT d1 d2 := hv.subset (head?_mem_self hc)
    rcases mem_limRT hd1 hd2 hcmem with h | h
    · have hall : ∀ x ∈ cs "limit ofset", lowerChar x ≠ 'r' := by decide
      exact hall c h heq
    · rw [digit_lower h] at heq
      subst heq
      exact absurd h (by decide)
  obtain ⟨v9, e9⟩ := randAux_append_keep (limRT d1 d2)
    (hRnot ')' (by decide) (by decide)) hRdeadRand
    (v8 ++ limRT d1 d2).length none v8 (le_refl _)
  have e9r : randSub (v8 ++ limRT d1 d2) = v9 ++ limRT d1 d2 := e9
  obtain ⟨v10, e10⟩ := pyReplace_keep_tail (cs "%s") (cs ":param_name")
    (limRT d1 d2) (by decide)
    (sfx_pfx_dead (show '%' ∈ cs "%s" by decide) (hRnot '%' (by decide) (by decide)))
    (hRcross _ (by decide)) v9
  obtain ⟨v11, e11⟩ := pyReplace_keep_tail (cs "%i") (cs ":param_name")
    (limRT d1 d2) (by decide)
    (sfx_pfx_dead (show '%' ∈ cs "%i" by decide) (hRnot '%' (by decide) (by decide)))
    (hRcross _ (by decide)) v10
  obtain ⟨v12, e12⟩ := pyReplace_keep_tail (cs "%d") (cs ":param_name")
    (limRT d1 d2) (by decide)
    (sfx_pfx_dead (show '%' ∈ cs "%d" by decide) (hRnot '%' (by decide) (by decide)))
    (hRcross _ (by decide)) v11
  have hRdeadHash : ∀ v, v <:+ limRT d1 d2 → tryHash v = none := by
    intro v hv
    apply tryHash_dead
    intro hc
    exact hRnot '#' (by decide) (by decide) (hv.subset (head?_mem_self hc))
  obtain ⟨v13, e13⟩ := scanAux_append_keep tryHash (limRT d1 d2) '}'
    (hRnot '}' (by decide) (by decide)) hRdeadHash
    (fun _ _ _ h => tryHash_sound h)
    (v12 ++ limRT d1 d2).length v12 (le_refl _)
  have e13h : hashSub (v12 ++ limRT d1 d2) = v13 ++ limRT d1 d2 := e13
  have hRdeadBrace : ∀ v, v <:+ limRT d1 d2 → tryBrace v = none := by
    intro v hv
    apply tryBrace_dead
    intro hc
    exact hRnot '{' (by decide) (by decide) (hv.subset (head?_mem_self hc))
  obtain ⟨v14, e14⟩ := scanAux_append_keep tryBrace (limRT d1 d2) '}'
    (hRnot '}' (by decide) (by decide)) hRdeadBrace
    (fun _ _ _ h => tryBrace_sound h)
    (v13 ++ limRT d1 d2).length v13 (le_refl _)
  have e14b : braceSub (v13 ++ limRT d1 d2) = v14 ++ limRT d1 d2 := e14
  refine ⟨v14, ?_⟩
  simp only [prepare_sql_statically]
  rw [e1, e2, e3, e4, e5, e6, e7, e8l, e9r, e10, e11, e12, e13h, e14b]

/-- C7 (counterexample): the spec's example is rewritten, but to the
lowercase `limit 5 offset 10` — the normalized string does not end in the
claimed uppercase `LIMIT 5 OFFSET 10`. -/
theorem limit_rewrite_uppercase_counterexample :
    prepare_sql_statically (cs "SELECT * FROM t LIMIT 10, 5") =
      cs "SELECT * FROM t limit 5 offset 10" ∧
    ¬ cs "LIMIT 5 OFFSET 10" <:+
      prepare_sql_statically (cs "SELECT * FROM t LIMIT 10, 5") := by
  constructor
  · decide
  · decide

/-- C7 (amended): for every input whose tail is a numeric comma-separated
LIMIT clause `LIMIT d1, d2` (nonempty digit strings `d1`, `d2`, arbitrary
prefix), `prepare_sql_statically` rewrites the tail to count-then-offset
form — but in the replacement template's lowercase spelling: the output
ends in `limit d2 offset d1`. -/
theorem limit_clause_rewrite_tail (u d1 d2 : List Char) (h1 : d1 ≠ []) (h2 : d2 ≠ [])
    (hd1 : ∀ c ∈ d1, isDigitC c = true) (hd2 : ∀ c ∈ d2, isDigitC c = true) :
    ∃ v, prepare_sql_statically (u ++ limTail d1 d2) = v ++ limRT d1 d2 :=
  limit_tail_rewrite_aux u d1 d2 h1 h2 hd1 hd2

/-- Witness for C7's amended theorem at the spec's own example offsets. -/
theorem limit_clause_rewrite_tail_witness :
    ((cs "10" ≠ [] ∧ cs "5" ≠ []) ∧
      (∀ c ∈ cs "10", isDigitC c = true) ∧ (∀ c ∈ cs "5", isDigitC c = true)) ∧
    ∃ v, prepare_sql_statically (cs "SELECT * FROM t " ++ limTail (cs "10") (cs "5")) =
      v ++ limRT (cs "10") (cs "5") :=
  ⟨⟨⟨by decide, by decide⟩, by decide, by decide⟩,
   limit_clause_rewrite_tail (cs "SELECT * FROM t ") (cs "10") (cs "5")
     (by decide) (by decide) (by decide) (by decide)⟩

/-! ## Second-pass identity infrastructure for the normalizer -/

theorem hasScanM_suffix (m : List Char → Option (List Char × List Char)) :
    ∀ s, hasScanM m s = false → ∀ v, v <:+ s → v ≠ [] → m v = none := by
  intro s
  induction s with
  | nil =>
    intro _ v hv hne
    exact absurd (List.suffix_nil.mp hv) hne
  | cons c rest ih =>
    intro h v hv hne
    simp only [hasScanM, Bool.or_eq_false_iff] at h
    rcases List.suffix_cons_iff.mp hv with rfl | hv'
    · cases hm : m (c :: rest) with
      | none => rfl
      | some x => rw [hm] at h; simp at h
    · exact ih h.2 v hv' hne

theorem randAux_id_of_hasRandM :
    ∀ (fuel : Nat) (prev : Option Char) (s : List Char),
      hasRandM prev s = false → randAux fuel prev s = s := by
  intro fuel
  induction fuel with
  | zero =>
    intro prev s _
    cases s with
    | nil => rfl
    | cons c rest => rfl
  | succ fuel1 ih =>
    intro prev s h
    cases s with
    | nil => rfl
    | cons c rest =>
      simp only [hasRandM, Bool.or_eq_false_iff] at h
      obtain ⟨h1, h2⟩ := h
      have hrec := ih (some c) rest h2
      cases hg : (match prev with | none => true | some p => !isWordC p) with
      | false => simp [randAux, hg, hrec]
      | true =>
        rw [hg] at h1
        simp only [Bool.true_and] at h1
        have hm : tryRand (c :: rest) = none := by
          cases hm2 : tryRand (c :: rest) with
          | none => rfl
          | some x => rw [hm2] at h1; simp at h1
        simp [randAux, hg, hm, hrec]

theorem h2_of_take (X q : List Char)
    (h : ∀ k, k < X.length → 0 < k → ¬ X.take k <:+ q) :
    ∀ X₁ X₂, X = X₁ ++ X₂ → X₁ ≠ [] → X₂ ≠ [] → ¬ X₁ <:+ q := by
  intro X₁ X₂ hX hn1 hn2 hs
  have htake : X.take X₁.length = X₁ := by rw [hX]; exact List.take_left X₁ X₂
  have hlt : X₁.length < X.length := by
    rw [hX, List.length_append]
    have := List.length_pos.mpr hn2
    omega
  exact h X₁.length hlt (List.length_pos.mpr hn1) (by rw [htake]; exact hs)

theorem after_sfx_of_decomp {s after : List Char} (h : ∃ M, s = M ++ after ∧ M ≠ [])
    : after <:+ s := by
  obtain ⟨M, hM, _⟩ := h
  exact ⟨M, hM.symm⟩

theorem tryHash_rep {s rep after : List Char} (h : tryHash s = some (rep, after)) :
    rep.head? = some ':' ∧ ∀ x ∈ rep, x = ':' ∨ isWordC x = true := by
  unfold tryHash at h
  split at h
  next r2 =>
    simp only [] at h
    split at h
    · exact absurd h (by simp)
    · split at h
      next r4 heq3 =>
        rw [Option.some_inj] at h
        obtain ⟨hrep, hafter⟩ := Prod.mk.injEq  .. ▸ h
        rw [← hrep]
        refine ⟨rfl, ?_⟩
        intro x hx
        rcases List.mem_cons.mp hx with rfl | hx'
        · exact Or.inl rfl
        · exact Or.inr (List.mem_takeWhile_imp hx')
      next => exact absurd h (by simp)
  next => exact absurd h (by simp)

theorem tryBrace_rep {s rep after : List Char} (h : tryBrace s = some (rep, after)) :
    rep.head? = some ':' ∧ ∀ x ∈ rep, x = ':' ∨ isWordC x = true := by
  unfold tryBrace at h
  split at h
  next r1 =>
    simp only [] at h
    split at h
    · exact absurd h (by simp)
    · split at h
      next r5 heq4 =>
        rw [Option.some_inj] at h
        obtain ⟨hrep, hafter⟩ := Prod.mk.injEq  .. ▸ h
        rw [← hrep]
        refine ⟨rfl, ?_⟩
        intro x hx
        rcases List.mem_cons.mp hx with rfl | hx'
        · exact Or.inl rfl
        · exact Or.inr (List.mem_takeWhile_imp hx')
      next => exact absurd h (by simp)
  next => exact absurd h (by simp)

theorem tryLimit_rep {s rep after : List Char} (h : tryLimit s = some (rep, after)) :
    rep.head? = some 'l' ∧ ∀ x ∈ rep, x ∈ cs "limit ofset" ∨ isDigitC x = true := by
  unfold tryLimit at h
  split at h
  next c1 c2 c3 c4 c5 r5 =>
    simp only [] at h
    split at h
    next hg =>
      split at h
      · exact absurd h (by simp)
      next hsp1 =>
        split at h
        · exact absurd h (by simp)
        next hd1ne =>
          split at h
          next r9 heq8 =>
            split at h
            · exact absurd h (by simp)
            next hd2ne =>
              rw [Option.some_inj] at h
              obtain ⟨hrep, hafter⟩ := Prod.mk.injEq  .. ▸ h
              rw [← hrep]
              constructor
              · rfl
              · intro x hx
                simp only [List.mem_append] at hx
                rcases hx with ((hx | hx) | hx) | hx
                · exact Or.inl (by simp only [cs] at hx ⊢; simp at hx ⊢; tauto)
                · exact Or.inr (List.mem_takeWhile_imp hx)
                · exact Or.inl (by simp only [cs] at hx ⊢; simp at hx ⊢; tauto)
                · exact Or.inr (List.mem_takeWhile_imp hx)
          next => exact absurd h (by simp)
    next => exact absurd h (by simp)
  next => exact absurd h (by simp)

theorem tryHash_after {s rep after : List Char} (h : tryHash s = some (rep, after)) :
    after <:+ s :=
  after_sfx_of_decomp (by obtain ⟨M, hM, hne, _⟩ := tryHash_sound h; exact ⟨M, hM, hne⟩)

theorem tryBrace_after {s rep after : List Char} (h : tryBrace s = some (rep, after)) :
    after <:+ s :=
  after_sfx_of_decomp (by obtain ⟨M, hM, hne, _⟩ := tryBrace_sound h; exact ⟨M, hM, hne⟩)

theorem tryRand_after {s after : List Char} (h : tryRand s = some after) :
    after <:+ s :=
  after_sfx_of_decomp (by obtain ⟨M, hM, hne, _⟩ := tryRand_sound h; exact ⟨M, hM, hne⟩)

theorem tryLimit_after {s rep after : List Char} (h : tryLimit s = some (rep, after)) :
    after <:+ s := by
  obtain ⟨c1, c2, c3, c4, c5, rest5, hs, -, -, -, -, -⟩ := tryLimit_sound h
  exact ⟨c1 :: c2 :: c3 :: c4 :: c5 :: rest5, by rw [hs]; simp⟩

theorem tryLimit_dec {s rep after : List Char} (h : tryLimit s = some (rep, after)) :
    ∃ M, s = M ++ after ∧ M ≠ [] := by
  obtain ⟨c1, c2, c3, c4, c5, rest5, hs, -, -, -, -, -⟩ := tryLimit_sound h
  exact ⟨c1 :: c2 :: c3 :: c4 :: c5 :: rest5, by rw [hs]; simp, by simp⟩

theorem scanAux_pfx_reflect (m : List Char → Option (List Char × List Char))
    (hrepne : ∀ s rep after, m s = some (rep, after) → rep ≠ []) :
    ∀ (fuel : Nat) (s X' : List Char), X' ≠ [] →
      (∀ c ∈ X', ∀ s₂ rep after, m s₂ = some (rep, after) → rep.head? ≠ some c) →
      X' <+: scanAux m fuel s → X' <+: s := by
  intro fuel
  induction fuel with
  | zero =>
    intro s X' _ _ h
    cases s with
    | nil => exact h
    | cons c rest => exact h
  | succ fuel1 ih =>
    intro s X' hX' hh h
    cases s with
    | nil => exact h
    | cons c rest =>
      cases hm : m (c :: rest) with
      | some pr =>
        obtain ⟨rep, after⟩ := pr
        rw [show scanAux m (fuel1 + 1) (c :: rest) = rep ++ scanAux m fuel1 after from by
          simp only [scanAux, hm]] at h
        exfalso
        cases X' with
        | nil => exact hX' rfl
        | cons x X'' =>
          have hhd := head_of_pfx h (by simp)
          have hrne := hrepne _ _ _ hm
          cases rep with
          | nil => exact hrne rfl
          | cons rh rt =>
            simp only [List.cons_append, List.head?_cons, Option.some.injEq] at hhd
            exact hh x (by simp) _ _ _ hm (by simp [hhd])
      | none =>
        rw [show scanAux m (fuel1 + 1) (c :: rest) = c :: scanAux m fuel1 rest from by
          simp only [scanAux, hm]] at h
        cases X' with
        | nil => exact absurd rfl hX'
        | cons x X'' =>
          rw [List.cons_prefix_cons] at h
          obtain ⟨rfl, h2⟩ := h
          by_cases hX'' : X'' = []
          · subst hX''
            exact List.cons_prefix_cons.mpr ⟨rfl, List.nil_prefix⟩
          · exact List.cons_prefix_cons.mpr ⟨rfl,
              ih rest X'' hX'' (fun d hd => hh d (by simp [hd])) h2⟩

theorem scanAux_ifx_reflect (m : List Char → Option (List Char × List Char))
    (X : List Char) (x₀ : Char) (hx₀ : X.head? = some x₀)
    (hdec : ∀ s rep after, m s = some (rep, after) → ∃ M, s = M ++ after ∧ M ≠ [])
    (hrepne : ∀ s rep after, m s = some (rep, after) → rep ≠ [])
    (hx₀rep : ∀ s rep after, m s = some (rep, after) → x₀ ∉ rep)
    (hheads : ∀ c ∈ X.tail, ∀ s rep after, m s = some (rep, after) → rep.head? ≠ some c) :
    ∀ (fuel : Nat) (s : List Char), ¬ X <:+: s → ¬ X <:+: scanAux m fuel s := by
  intro fuel
  induction fuel with
  | zero =>
    intro s hns h
    cases s with
    | nil => exact hns h
    | cons c rest => exact hns h
  | succ fuel1 ih =>
    intro s hns h
    cases s with
    | nil => exact hns h
    | cons c rest =>
      cases hm : m (c :: rest) with
      | some pr =>
        obtain ⟨rep, after⟩ := pr
        rw [show scanAux m (fuel1 + 1) (c :: rest) = rep ++ scanAux m fuel1 after from by
          simp only [scanAux, hm]] at h
        rcases infix_append_split X rep _ h with hin | hin |
          ⟨X₁, X₂, hXeq, hne1, hne2, hsx, -⟩
        · exact hx₀rep _ _ _ hm (hin.subset (head?_mem_self hx₀))
        · have hsfx : after <:+ c :: rest := after_sfx_of_decomp (hdec _ _ _ hm)
          exact ih after (fun hcon => hns (ifx_of_sfx_ifx hcon hsfx)) hin
        · cases X₁ with
          | nil => exact hne1 rfl
          | cons y Y =>
            rw [hXeq] at hx₀
            simp only [List.cons_append, List.head?_cons, Option.some.injEq] at hx₀
            subst hx₀
            exact hx₀rep _ _ _ hm (hsx.subset (by simp))
      | none =>
        rw [show scanAux m (fuel1 + 1) (c :: rest) = c :: scanAux m fuel1 rest from by
          simp only [scanAux, hm]] at h
        rcases List.infix_cons_iff.mp h with hpfx | hlater
        · cases X with
          | nil => simp at hx₀
          | cons x Xt =>
            rw [List.cons_prefix_cons] at hpfx
            obtain ⟨rfl, htail⟩ := hpfx
            by_cases hXt : Xt = []
            · subst hXt
              exact hns ⟨[], rest, rfl⟩
            · have := scanAux_pfx_reflect m hrepne fuel1 rest Xt hXt
                (fun d hd => hheads d hd) htail
              exact hns (List.IsPrefix.isInfix (List.cons_prefix_cons.mpr ⟨rfl, this⟩))
        · exact ih rest (fun hcon => hns (hcon.trans ⟨[c], [], by simp⟩)) hlater

theorem randAux_pfx_reflect :
    ∀ (fuel : Nat) (prev : Option Char) (s X' : List Char), X' ≠ [] →
      (∀ c ∈ X', c ≠ 'r') → X' <+: randAux fuel prev s → X' <+: s := by
  intro fuel
  induction fuel with
  | zero =>
    intro prev s X' _ _ h
    cases s with
    | nil => exact h
    | cons c rest => exact h
  | succ fuel1 ih =>
    intro prev s X' hX' hh h
    cases s with
    | nil => exact h
    | cons c rest =>
      cases hg : (match prev with | none => true | some p => !isWordC p) with
      | false =>
        rw [show randAux (fuel1 + 1) prev (c :: rest) =
            c :: randAux fuel1 (some c) rest from by simp [randAux, hg]] at h
        cases X' with
        | nil => exact absurd rfl hX'
        | cons x X'' =>
          rw [List.cons_prefix_cons] at h
          obtain ⟨rfl, h2⟩ := h
          by_cases hX'' : X'' = []
          · subst hX''
            exact List.cons_prefix_cons.mpr ⟨rfl, List.nil_prefix⟩
          · exact List.cons_prefix_cons.mpr ⟨rfl,
              ih (some x) rest X'' hX'' (fun d hd => hh d (by simp [hd])) h2⟩
      | true =>
        cases hm : tryRand (c :: rest) with
        | some after =>
          rw [show randAux (fuel1 + 1) prev (c :: rest) =
              cs "random()" ++ randAux fuel1 (some ')') after from by
            simp [randAux, hg, hm]] at h
          exfalso
          cases X' with
          | nil => exact hX' rfl
          | cons x X'' =>
            have hhd := head_of_pfx h (by simp)
            simp only [cs] at hhd
            simp at hhd
            exact hh x (by simp) (by rw [hhd])
        | none =>
          rw [show randAux (fuel1 + 1) prev (c :: rest) =
              c :: randAux fuel1 (some c) rest from by simp [randAux, hg, hm]] at h
          cases X' with
          | nil => exact absurd rfl hX'
          | cons x X'' =>
            rw [List.cons_prefix_cons] at h
            obtain ⟨rfl, h2⟩ := h
            by_cases hX'' : X'' = []
            · subst hX''
              exact List.cons_prefix_cons.mpr ⟨rfl, List.nil_prefix⟩
            · exact List.cons_prefix_cons.mpr ⟨rfl,
                ih (some x) rest X'' hX'' (fun d hd => hh d (by simp [hd])) h2⟩

theorem randAux_ifx_reflect (X : List Char) (x₀ : Char) (hx₀ : X.head? = some x₀)
    (hx₀rep : x₀ ∉ cs "random()")
    (hheads : ∀ c ∈ X.tail, c ≠ 'r') :
    ∀ (fuel : Nat) (prev : Option Char) (s : List Char),
      ¬ X <:+: s → ¬ X <:+: randAux fuel prev s := by
  intro fuel
  induction fuel with
  | zero =>
    intro prev s hns h
    cases s with
    | nil => exact hns h
    | cons c rest => exact hns h
  | succ fuel1 ih =>
    intro prev s hns h
    cases s with
    | nil => exact hns h
    | cons c rest =>
      cases hg : (match prev with | none => true | some p => !isWordC p) with
      | false =>
        rw [show randAux (fuel1 + 1) prev (c :: rest) =
            c :: randAux fuel1 (some c) rest from by simp [randAux, hg]] at h
        rcases List.infix_cons_iff.mp h with hpfx | hlater
        · cases X with
          | nil => simp at hx₀
          | cons x Xt =>
            rw [List.cons_prefix_cons] at hpfx
            obtain ⟨rfl, htail⟩ := hpfx
            by_cases hXt : Xt = []
            · subst hXt
              exact hns ⟨[], rest, rfl⟩
            · have := randAux_pfx_reflect fuel1 (some x) rest Xt hXt
                (fun d hd => hheads d hd) htail
              exact hns (List.IsPrefix.isInfix (List.cons_prefix_cons.mpr ⟨rfl, this⟩))
        · exact ih (some c) rest (fun hcon => hns (hcon.trans ⟨[c], [], by simp⟩)) hlater
      | true =>
        cases hm : tryRand (c :: rest) with
        | some after =>
          rw [show randAux (fuel1 + 1) prev (c :: rest) =
              cs "random()" ++ randAux fuel1 (some ')') after from by
            simp [randAux, hg, hm]] at h
          rcases infix_append_split X (cs "random()") _ h with hin | hin |
            ⟨X₁, X₂, hXeq, hne1, hne2, hsx, -⟩
          · exact hx₀rep (hin.subset (head?_mem_self hx₀))
          · have hsfx : after <:+ c :: rest := tryRand_after hm
            exact ih (some ')') after (fun hcon => hns (ifx_of_sfx_ifx hcon hsfx)) hin
          · cases X₁ with
            | nil => exact hne1 rfl
            | cons y Y =>
              rw [hXeq] at hx₀
              simp only [List.cons_append, List.head?_cons, Option.some.injEq] at hx₀
              subst hx₀
              exact hx₀rep (hsx.subset (by simp))
        | none =>
          rw [show randAux (fuel1 + 1) prev (c :: rest) =
              c :: randAux fuel1 (some c) rest from by simp [randAux, hg, hm]] at h
          rcases List.infix_cons_iff.mp h with hpfx | hlater
          · cases X with
            | nil => simp at hx₀
            | cons x Xt =>
              rw [List.cons_prefix_cons] at hpfx
              obtain ⟨rfl, htail⟩ := hpfx
              by_cases hXt : Xt = []
              · subst hXt
                exact hns ⟨[], rest, rfl⟩
              · have := randAux_pfx_reflect fuel1 (some x) rest Xt hXt
                  (fun d hd => hheads d hd) htail
                exact hns (List.IsPrefix.isInfix (List.cons_prefix_cons.mpr ⟨rfl, this⟩))
          · exact ih (some c) rest (fun hcon => hns (hcon.trans ⟨[c], [], by simp⟩)) hlater

theorem replAux_nil (p q : List Char) : ∀ fuel, replAux p q fuel [] = [] := by
  intro fuel
  cases fuel with
  | zero => rfl
  | succ fuel1 => rfl

theorem replAux_eq_head : ∀ (fuel : Nat) (t : List Char), t ≠ [] →
    (replAux (cs "= =") (cs "=") fuel t).head? = t.head? := by
  intro fuel t hne
  cases fuel with
  | zero =>
    cases t with
    | nil => exact absurd rfl hne
    | cons c r => rfl
  | succ fuel1 =>
    cases t with
    | nil => exact absurd rfl hne
    | cons c r =>
      by_cases hp : (cs "= =").isPrefixOf (c :: r) = true
      · have hc : c = '=' := by
          have hpf := List.isPrefixOf_iff_prefix.mp hp
          rw [show cs "= =" = '=' :: cs " =" from rfl, List.cons_prefix_cons] at hpf
          exact hpf.1.symm
        rw [replAux, if_pos hp]
        simp [cs, hc]
      · rw [replAux, if_neg hp]
        rfl

theorem replAux_eq_pfx_sp : ∀ (fuel : Nat) (t : List Char),
    cs " =" <+: replAux (cs "= =") (cs "=") fuel t → cs " =" <+: t := by
  intro fuel
  induction fuel with
  | zero =>
    intro t h
    cases t with
    | nil => exact h
    | cons c r => exact h
  | succ fuel1 ih =>
    intro t h
    cases t with
    | nil => exact h
    | cons c r =>
      by_cases hp : (cs "= =").isPrefixOf (c :: r) = true
      · exfalso
        rw [replAux, if_pos hp] at h
        have hhd := head_of_pfx h (by decide)
        simp [cs] at hhd
      · rw [replAux, if_neg hp] at h
        rw [show cs " =" = ' ' :: ['='] from rfl] at h ⊢
        rw [List.cons_prefix_cons] at h
        obtain ⟨hc, h2⟩ := h
        cases r with
        | nil =>
          rw [replAux_nil] at h2
          simp at h2
        | cons d r' =>
          have hhd2 := head_of_pfx h2 (by simp)
          rw [replAux_eq_head fuel1 (d :: r') (by simp)] at hhd2
          simp only [List.head?_cons, Option.some.injEq] at hhd2
          subst hhd2
          exact List.cons_prefix_cons.mpr ⟨hc,
            List.cons_prefix_cons.mpr ⟨rfl, List.nil_prefix⟩⟩

theorem replAux_eq_ifx_reflect (α : Char) (hα : α ≠ '=') :
    ∀ (fuel : Nat) (s : List Char), ¬ (α :: cs " =") <:+: s →
      ¬ (α :: cs " =") <:+: replAux (cs "= =") (cs "=") fuel s := by
  intro fuel
  induction fuel with
  | zero =>
    intro s hns h
    cases s with
    | nil => exact hns h
    | cons c r => exact hns h
  | succ fuel1 ih =>
    intro s hns h
    cases s with
    | nil => exact hns h
    | cons c r =>
      by_cases hp : (cs "= =").isPrefixOf (c :: r) = true
      · rw [replAux, if_pos hp] at h
        rcases infix_append_split _ (cs "=") _ h with hin | hin |
          ⟨X₁, X₂, hXeq, hne1, hne2, hsx, -⟩
        · have := hin.length_le
          simp [cs] at this
        · exact ih _ (fun hcon => hns (ifx_of_sfx_ifx hcon (List.drop_suffix _ _))) hin
        · cases X₁ with
          | nil => exact hne1 rfl
          | cons y Y =>
            have hy : y = α := by
              have hhd := congrArg List.head? hXeq
              simp at hhd
              exact hhd.symm
            have hmem : y ∈ cs "=" := hsx.subset (by simp)
            rw [hy] at hmem
            simp [cs] at hmem
            exact hα hmem
      · rw [replAux, if_neg hp] at h
        rcases List.infix_cons_iff.mp h with hpfx | hlater
        · rw [List.cons_prefix_cons] at hpfx
          obtain ⟨rfl, h2⟩ := hpfx
          have := replAux_eq_pfx_sp fuel1 r h2
          exact hns (List.IsPrefix.isInfix (List.cons_prefix_cons.mpr ⟨rfl, this⟩))
        · exact ih r (fun hcon => hns (hcon.trans ⟨[c], [], by simp⟩)) hlater

theorem scanAux_nil (m : List Char → Option (List Char × List Char)) :
    ∀ fuel, scanAux m fuel [] = [] := by
  intro fuel
  cases fuel with
  | zero => rfl
  | succ fuel1 => rfl

theorem randAux_nil : ∀ fuel prev, randAux fuel prev [] = [] := by
  intro fuel prev
  cases fuel with
  | zero => rfl
  | succ fuel1 => rfl

theorem replAux_mem (p q : List Char) :
    ∀ (fuel : Nat) (s : List Char) (x : Char),
      x ∈ replAux p q fuel s → x ∈ q ∨ x ∈ s := by
  intro fuel
  induction fuel with
  | zero =>
    intro s x h
    cases s with
    | nil => exact absurd h (List.not_mem_nil x)
    | cons c rest => exact Or.inr h
  | succ fuel1 ih =>
    intro s x h
    cases s with
    | nil => exact absurd h (List.not_mem_nil x)
    | cons c rest =>
      by_cases hp : p.isPrefixOf (c :: rest) = true
      · rw [replAux, if_pos hp] at h
        rcases List.mem_append.mp h with h1 | h1
        · exact Or.inl h1
        · rcases ih _ x h1 with h2 | h2
          · exact Or.inl h2
          · exact Or.inr (List.mem_of_mem_drop h2)
      · rw [replAux, if_neg hp] at h
        rcases List.mem_cons.mp h with rfl | h1
        · exact Or.inr (by simp)
        · rcases ih rest x h1 with h2 | h2
          · exact Or.inl h2
          · exact Or.inr (by simp [h2])

theorem scanAux_mem (m : List Char → Option (List Char × List Char))
    (P : Char → Prop)
    (hrep : ∀ s rep after, m s = some (rep, after) → ∀ x ∈ rep, P x)
    (hdec : ∀ s rep after, m s = some (rep, after) → ∃ M, s = M ++ after ∧ M ≠ []) :
    ∀ (fuel : Nat) (s : List Char) (x : Char),
      x ∈ scanAux m fuel s → P x ∨ x ∈ s := by
  intro fuel
  induction fuel with
  | zero =>
    intro s x h
    cases s with
    | nil => exact absurd h (List.not_mem_nil x)
    | cons c rest => exact Or.inr h
  | succ fuel1 ih =>
    intro s x h
    cases s with
    | nil => exact absurd h (List.not_mem_nil x)
    | cons c rest =>
      cases hm : m (c :: rest) with
      | some pr =>
        obtain ⟨rep, after⟩ := pr
        rw [show scanAux m (fuel1 + 1) (c :: rest) = rep ++ scanAux m fuel1 after from by
          simp only [scanAux, hm]] at h
        rcases List.mem_append.mp h with h1 | h1
        · exact Or.inl (hrep _ _ _ hm x h1)
        · rcases ih after x h1 with h2 | h2
          · exact Or.inl h2
          · exact Or.inr ((after_sfx_of_decomp (hdec _ _ _ hm)).subset h2)
      | none =>
        rw [show scanAux m (fuel1 + 1) (c :: rest) = c :: scanAux m fuel1 rest from by
          simp only [scanAux, hm]] at h
        rcases List.mem_cons.mp h with rfl | h1
        · exact Or.inr (by simp)
        · rcases ih rest x h1 with h2 | h2
          · exact Or.inl h2
          · exact Or.inr (by simp [h2])

theorem randAux_mem :
    ∀ (fuel : Nat) (prev : Option Char) (s : List Char) (x : Char),
      x ∈ randAux fuel prev s → x ∈ cs "random()" ∨ x ∈ s := by
  intro fuel
  induction fuel with
  | zero =>
    intro prev s x h
    cases s with
    | nil => exact absurd h (List.not_mem_nil x)
    | cons c rest => exact Or.inr h
  | succ fuel1 ih =>
    intro prev s x h
    cases s with
    | nil => exact absurd h (List.not_mem_nil x)
    | cons c rest =>
      cases hg : (match prev with | none => true | some p => !isWordC p) with
      | false =>
        rw [show randAux (fuel1 + 1) prev (c :: rest) =
            c :: randAux fuel1 (some c) rest from by simp [randAux, hg]] at h
        rcases List.mem_cons.mp h with rfl | h1
        · exact Or.inr (by simp)
        · rcases ih (some c) rest x h1 with h2 | h2
          · exact Or.inl h2
          · exact Or.inr (by simp [h2])
      | true =>
        cases hm : tryRand (c :: rest) with
        | some after =>
          rw [show randAux (fuel1 + 1) prev (c :: rest) =
              cs "random()" ++ randAux fuel1 (some ')') after from by
            simp [randAux, hg, hm]] at h
          rcases List.mem_append.mp h with h1 | h1
          · exact Or.inl h1
          · rcases ih (some ')') after x h1 with h2 | h2
            · exact Or.inl h2
            · exact Or.inr ((tryRand_after hm).subset h2)
        | none =>
          rw [show randAux (fuel1 + 1) prev (c :: rest) =
              c :: randAux fuel1 (some c) rest from by simp [randAux, hg, hm]] at h
          rcases List.mem_cons.mp h with rfl | h1
          · exact Or.inr (by simp)
          · rcases ih (some c) rest x h1 with h2 | h2
            · exact Or.inl h2
            · exact Or.inr (by simp [h2])

theorem replAux_single_removes (c : Char) (q : List Char) (hq : c ∉ q) :
    ∀ (fuel : Nat) (s : List Char), s.length ≤ fuel →
      c ∉ replAux [c] q fuel s := by
  intro fuel
  induction fuel with
  | zero =>
    intro s hs
    have : s = [] := List.length_eq_zero.mp (by omega)
    subst this
    simp [replAux_nil]
  | succ fuel1 ih =>
    intro s hs
    cases s with
    | nil => simp [replAux_nil]
    | cons d rest =>
      by_cases hp : ([c] : List Char).isPrefixOf (d :: rest) = true
      · rw [replAux, if_pos hp]
        intro hmem
        rcases List.mem_append.mp hmem with h1 | h1
        · exact hq h1
        · exact ih _ (by simp at hs ⊢; omega) h1
      · rw [replAux, if_neg hp]
        intro hmem
        rcases List.mem_cons.mp hmem with rfl | h1
        · exact hp (List.isPrefixOf_iff_prefix.mpr ⟨rest, rfl⟩)
        · exact ih rest (by simp at hs; omega) h1

theorem space_cases {c : Char} (h : pyIsSpace c = true) :
    c = ' ' ∨ c = '\t' ∨ c = '\n' ∨ c = '\r' ∨ c = '\x0b' ∨ c = '\x0c' := by
  simp only [pyIsSpace, Bool.or_eq_true, decide_eq_true_eq] at h
  tauto

theorem space_not_brace {c : Char} (h : pyIsSpace c = true) : c ≠ '{' := by
  rcases space_cases h with rfl | rfl | rfl | rfl | rfl | rfl <;> decide

theorem space_not_word {c : Char} (h : pyIsSpace c = true) : isWordC c = false := by
  rcases space_cases h with rfl | rfl | rfl | rfl | rfl | rfl <;> decide

theorem word_not_space {c : Char} (h : isWordC c = true) : pyIsSpace c = false := by
  cases hs : pyIsSpace c
  · rfl
  · rw [space_not_word hs] at h
    exact absurd h (by simp)

theorem word_not_brace {c : Char} (h : isWordC c = true) : c ≠ '{' := by
  intro he
  rw [he] at h
  exact absurd h (by decide)

theorem takeWhile_nil_of_head (p : Char → Bool) (L : List Char)
    (hB : ∀ b, L.head? = some b → p b = false) :
    L.takeWhile p = [] ∧ L.dropWhile p = L := by
  cases L with
  | nil => exact ⟨rfl, rfl⟩
  | cons b L' => simp [List.takeWhile_cons, List.dropWhile_cons, hB b rfl]

theorem dropWhile_head_false (p : Char → Bool) :
    ∀ (l : List Char) (a : Char), (l.dropWhile p).head? = some a → p a = false := by
  intro l
  induction l with
  | nil => intro a h; simp at h
  | cons c r ih =>
    intro a h
    by_cases hc : p c = true
    · rw [List.dropWhile_cons_of_pos hc] at h
      exact ih a h
    · rw [List.dropWhile_cons_of_neg hc] at h
      simp only [List.head?_cons, Option.some.injEq] at h
      subst h
      exact Bool.not_eq_true _ ▸ (by simpa using hc)

theorem takeWhile_nil_head_false (p : Char → Bool) (l : List Char) (a : Char)
    (htw : l.takeWhile p = []) (hh : l.head? = some a) : p a = false := by
  cases l with
  | nil => simp at hh
  | cons b l' =>
    simp only [List.head?_cons, Option.some.injEq] at hh
    subst hh
    by_cases hb : p b = true
    · rw [List.takeWhile_cons_of_pos hb] at htw
      simp at htw
    · simpa using hb

theorem sfx_append_split {v : List Char} : ∀ (A B : List Char), v <:+ A ++ B →
    v <:+ B ∨ ∃ v₁, v₁ ≠ [] ∧ v₁ <:+ A ∧ v = v₁ ++ B := by
  intro A
  induction A generalizing v with
  | nil => intro B h; exact Or.inl (by simpa using h)
  | cons a A' ih =>
    intro B h
    rw [List.cons_append] at h
    rcases List.suffix_cons_iff.mp h with rfl | h'
    · exact Or.inr ⟨a :: A', by simp, List.suffix_refl _, by simp⟩
    · rcases ih B h' with h1 | ⟨v₁, hne, hsfx, rfl⟩
      · exact Or.inl h1
      · exact Or.inr ⟨v₁, hne, hsfx.trans (List.suffix_cons a A'), rfl⟩

theorem scanAux_fuel (m : List Char → Option (List Char × List Char))
    (hdec : ∀ s rep after, m s = some (rep, after) → ∃ M, s = M ++ after ∧ M ≠ []) :
    ∀ (fuel1 fuel2 : Nat) (s : List Char), s.length ≤ fuel1 → s.length ≤ fuel2 →
      scanAux m fuel1 s = scanAux m fuel2 s := by
  intro fuel1
  induction fuel1 with
  | zero =>
    intro fuel2 s h1 _
    have : s = [] := List.length_eq_zero.mp (by omega)
    subst this
    rw [scanAux_nil, scanAux_nil]
  | succ f1 ih =>
    intro fuel2 s h1 h2
    cases s with
    | nil => rw [scanAux_nil, scanAux_nil]
    | cons c rest =>
      cases fuel2 with
      | zero => simp at h2
      | succ f2 =>
        cases hm : m (c :: rest) with
        | some pr =>
          obtain ⟨rep, after⟩ := pr
          obtain ⟨M, hM, hMne⟩ := hdec _ _ _ hm
          have hlen : after.length < (c :: rest).length := by
            rw [hM, List.length_append]
            have := List.length_pos.mpr hMne
            omega
          rw [show scanAux m (f1 + 1) (c :: rest) = rep ++ scanAux m f1 after from by
              simp only [scanAux, hm],
            show scanAux m (f2 + 1) (c :: rest) = rep ++ scanAux m f2 after from by
              simp only [scanAux, hm],
            ih f2 after (by simp at h1 hlen ⊢; omega) (by simp at h2 hlen ⊢; omega)]
        | none =>
          rw [show scanAux m (f1 + 1) (c :: rest) = c :: scanAux m f1 rest from by
              simp only [scanAux, hm],
            show scanAux m (f2 + 1) (c :: rest) = c :: scanAux m f2 rest from by
              simp only [scanAux, hm],
            ih f2 rest (by simp at h1; omega) (by simp at h2; omega)]

theorem tryBrace_dec {s rep after : List Char} (h : tryBrace s = some (rep, after)) :
    ∃ M, s = M ++ after ∧ M ≠ [] := by
  obtain ⟨M, hM, hne, -⟩ := tryBrace_sound h
  exact ⟨M, hM, hne⟩

theorem tryHash_dec {s rep after : List Char} (h : tryHash s = some (rep, after)) :
    ∃ M, s = M ++ after ∧ M ≠ [] := by
  obtain ⟨M, hM, hne, -⟩ := tryHash_sound h
  exact ⟨M, hM, hne⟩

theorem braceSub_cons_none {c : Char} {rest : List Char}
    (h : tryBrace (c :: rest) = none) :
    braceSub (c :: rest) = c :: braceSub rest := by
  show scanAux tryBrace (c :: rest).length (c :: rest) = _
  rw [show (c :: rest).length = rest.length + 1 from rfl]
  simp only [scanAux, h]
  rfl

theorem braceSub_cons_some {c : Char} {rest rep after : List Char}
    (h : tryBrace (c :: rest) = some (rep, after)) :
    braceSub (c :: rest) = rep ++ braceSub after := by
  show scanAux tryBrace (c :: rest).length (c :: rest) = _
  rw [show (c :: rest).length = rest.length + 1 from rfl]
  simp only [scanAux, h]
  congr 1
  obtain ⟨M, hM, hMne⟩ := tryBrace_dec h
  have hlen : after.length ≤ rest.length := by
    have : (c :: rest).length = M.length + after.length := by
      rw [hM, List.length_append]
    have := List.length_pos.mpr hMne
    simp at *
    omega
  exact scanAux_fuel tryBrace (fun _ _ _ hx => tryBrace_dec hx) rest.length
    after.length after hlen (le_refl _)

theorem braceSub_space_run : ∀ (A t : List Char), (∀ c ∈ A, pyIsSpace c = true) →
    braceSub (A ++ t) = A ++ braceSub t := by
  intro A
  induction A with
  | nil => intro t _; simp
  | cons a A' ih =>
    intro t hA
    have ha := hA a (by simp)
    have hdead : tryBrace (a :: (A' ++ t)) = none := by
      apply tryBrace_dead
      simp only [List.head?_cons, ne_eq, Option.some.injEq]
      exact space_not_brace ha
    rw [List.cons_append, braceSub_cons_none hdead,
      ih t (fun c hc => hA c (by simp [hc]))]
    rfl

theorem braceSub_word_run : ∀ (A t : List Char), (∀ c ∈ A, isWordC c = true) →
    braceSub (A ++ t) = A ++ braceSub t := by
  intro A
  induction A with
  | nil => intro t _; simp
  | cons a A' ih =>
    intro t hA
    have ha := hA a (by simp)
    have hdead : tryBrace (a :: (A' ++ t)) = none := by
      apply tryBrace_dead
      simp only [List.head?_cons, ne_eq, Option.some.injEq]
      exact word_not_brace ha
    rw [List.cons_append, braceSub_cons_none hdead,
      ih t (fun c hc => hA c (by simp [hc]))]
    rfl

theorem braceSub_head : ∀ t : List Char,
    (braceSub t).head? = t.head? ∨ (braceSub t).head? = some ':' := by
  intro t
  cases t with
  | nil => exact Or.inl rfl
  | cons f t' =>
    cases hm : tryBrace (f :: t') with
    | none => rw [braceSub_cons_none hm]; exact Or.inl rfl
    | some pr =>
      obtain ⟨rep, after⟩ := pr
      rw [braceSub_cons_some hm]
      right
      have hhd := (tryBrace_rep hm).1
      cases rep with
      | nil => simp at hhd
      | cons rh rt =>
        simp only [List.head?_cons, Option.some.injEq] at hhd
        subst hhd
        rfl

theorem brace_probe_pres (t : List Char) (hnone : tryBrace ('{' :: t) = none) :
    tryBrace ('{' :: braceSub t) = none := by
  have ht2 := List.takeWhile_append_dropWhile (p := pyIsSpace) (l := t)
  have hw := List.takeWhile_append_dropWhile (p := isWordC) (l := t.dropWhile pyIsSpace)
  have ht4 := List.takeWhile_append_dropWhile (p := pyIsSpace)
    (l := (t.dropWhile pyIsSpace).dropWhile isWordC)
  have hb1 : braceSub t = t.takeWhile pyIsSpace ++ braceSub (t.dropWhile pyIsSpace) := by
    conv_lhs => rw [← ht2]
    exact braceSub_space_run _ _ (fun c hc => List.mem_takeWhile_imp hc)
  by_cases hW : (t.dropWhile pyIsSpace).takeWhile isWordC = []
  · have hr2 : (braceSub t).dropWhile pyIsSpace = braceSub (t.dropWhile pyIsSpace) := by
      rw [hb1]
      refine (takeWhile_all_app pyIsSpace _ _ (fun c hc => List.mem_takeWhile_imp hc) ?_).2
      intro b hb
      rcases braceSub_head (t.dropWhile pyIsSpace) with hh | hh
      · rw [hh] at hb
        exact dropWhile_head_false pyIsSpace t b hb
      · rw [hh] at hb
        simp at hb
        subst hb
        decide
    have hcond : ((braceSub t).dropWhile pyIsSpace).takeWhile isWordC = [] := by
      rw [hr2]
      refine (takeWhile_nil_of_head isWordC _ ?_).1
      intro b hb
      rcases braceSub_head (t.dropWhile pyIsSpace) with hh | hh
      · rw [hh] at hb
        exact takeWhile_nil_head_false isWordC _ b hW hb
      · rw [hh] at hb
        simp at hb
        subst hb
        decide
    simp only [tryBrace]
    rw [if_pos hcond]
  · have hW_word : ∀ c ∈ (t.dropWhile pyIsSpace).takeWhile isWordC, isWordC c = true :=
      fun c hc => List.mem_takeWhile_imp hc
    simp only [tryBrace] at hnone
    rw [if_neg hW] at hnone
    have hT4head : ∀ r5,
        ((t.dropWhile pyIsSpace).dropWhile isWordC).dropWhile pyIsSpace ≠ '}' :: r5 := by
      intro r5 hT4
      rw [hT4] at hnone
      simp at hnone
    have hb2 : braceSub (t.dropWhile pyIsSpace) =
        (t.dropWhile pyIsSpace).takeWhile isWordC ++
          braceSub ((t.dropWhile pyIsSpace).dropWhile isWordC) := by
      conv_lhs => rw [← hw]
      exact braceSub_word_run _ _ hW_word
    have hb3 : braceSub ((t.dropWhile pyIsSpace).dropWhile isWordC) =
        ((t.dropWhile pyIsSpace).dropWhile isWordC).takeWhile pyIsSpace ++
          braceSub (((t.dropWhile pyIsSpace).dropWhile isWordC).dropWhile pyIsSpace) := by
      conv_lhs => rw [← ht4]
      exact braceSub_space_run _ _ (fun c hc => List.mem_takeWhile_imp hc)
    have hBhead : ∀ b, ((t.dropWhile pyIsSpace).takeWhile isWordC ++
        braceSub ((t.dropWhile pyIsSpace).dropWhile isWordC)).head? = some b →
        pyIsSpace b = false := by
      intro b hb
      cases hWc : (t.dropWhile pyIsSpace).takeWhile isWordC with
      | nil => exact absurd hWc hW
      | cons w0 W' =>
        rw [hWc] at hb
        simp at hb
        subst hb
        have hw0mem : w0 ∈ (t.dropWhile pyIsSpace).takeWhile isWordC := by
          rw [hWc]
          simp
        exact word_not_space (List.mem_takeWhile_imp hw0mem)
    have hr2 : (braceSub t).dropWhile pyIsSpace =
        (t.dropWhile pyIsSpace).takeWhile isWordC ++
          braceSub ((t.dropWhile pyIsSpace).dropWhile isWordC) := by
      rw [hb1, hb2]
      exact (takeWhile_all_app pyIsSpace _ _
        (fun c hc => List.mem_takeWhile_imp hc) hBhead).2
    have hT3bhead : ∀ b, (braceSub ((t.dropWhile pyIsSpace).dropWhile isWordC)).head? =
        some b → isWordC b = false := by
      intro b hb
      rcases braceSub_head ((t.dropWhile pyIsSpace).dropWhile isWordC) with hh | hh
      · rw [hh] at hb
        exact dropWhile_head_false isWordC _ b hb
      · rw [hh] at hb
        simp at hb
        subst hb
        decide
    have hout_w : ((braceSub t).dropWhile pyIsSpace).takeWhile isWordC =
        (t.dropWhile pyIsSpace).takeWhile isWordC := by
      rw [hr2]
      exact (takeWhile_all_app isWordC _ _ hW_word hT3bhead).1
    have hout_r3 : ((braceSub t).dropWhile pyIsSpace).dropWhile isWordC =
        braceSub ((t.dropWhile pyIsSpace).dropWhile isWordC) := by
      rw [hr2]
      exact (takeWhile_all_app isWordC _ _ hW_word hT3bhead).2
    have hout_r4 : (((braceSub t).dropWhile pyIsSpace).dropWhile isWordC).dropWhile
        pyIsSpace =
        braceSub (((t.dropWhile pyIsSpace).dropWhile isWordC).dropWhile pyIsSpace) := by
      rw [hout_r3, hb3]
      refine (takeWhile_all_app pyIsSpace _ _
        (fun c hc => List.mem_takeWhile_imp hc) ?_).2
      intro b hb
      rcases braceSub_head (((t.dropWhile pyIsSpace).dropWhile isWordC).dropWhile
          pyIsSpace) with hh | hh
      · rw [hh] at hb
        exact dropWhile_head_false pyIsSpace _ b hb
      · rw [hh] at hb
        simp at hb
        subst hb
        decide
    simp only [tryBrace]
    rw [hout_w, if_neg hW, hout_r4]
    cases hbs : braceSub (((t.dropWhile pyIsSpace).dropWhile isWordC).dropWhile
        pyIsSpace) with
    | nil => rfl
    | cons e es =>
      have hene : e ≠ '}' := by
        have hh := braceSub_head (((t.dropWhile pyIsSpace).dropWhile
          isWordC).dropWhile pyIsSpace)
        rw [hbs] at hh
        rcases hh with hh | hh
        · intro he
          subst he
          cases hT4 : ((t.dropWhile pyIsSpace).dropWhile isWordC).dropWhile pyIsSpace with
          | nil => rw [hT4] at hh; simp at hh
          | cons f T4' =>
            rw [hT4] at hh
            simp at hh
            exact hT4head T4' (by rw [hT4, hh])
        · simp at hh
          rw [hh]
          decide
      split
      next r5 heq =>
        exfalso
        injection heq with h1 h2
        exact hene h1
      next => rfl

theorem brace_removes : ∀ (n : Nat) (s : List Char), s.length ≤ n →
    ∀ v, v <:+ braceSub s → tryBrace v = none := by
  intro n
  induction n with
  | zero =>
    intro s hs v hv
    have hs0 : s = [] := List.length_eq_zero.mp (by omega)
    subst hs0
    have hv0 : v = [] := List.suffix_nil.mp hv
    subst hv0
    rfl
  | succ n1 ih =>
    intro s hs v hv
    cases s with
    | nil =>
      have hv0 : v = [] := List.suffix_nil.mp hv
      subst hv0
      rfl
    | cons c rest =>
      cases hm : tryBrace (c :: rest) with
      | some pr =>
        obtain ⟨rep, after⟩ := pr
        rw [braceSub_cons_some hm] at hv
        obtain ⟨M, hM, hMne⟩ := tryBrace_dec hm
        have hlen : after.length ≤ n1 := by
          have h2 : (c :: rest).length = M.length + after.length := by
            rw [hM, List.length_append]
          have := List.length_pos.mpr hMne
          simp at h2 hs
          omega
        rcases sfx_append_split rep (braceSub after) hv with h1 | ⟨v₁, hne, hv₁, rfl⟩
        · exact ih after hlen v h1
        · apply tryBrace_dead
          cases v₁ with
          | nil => exact absurd rfl hne
          | cons y Y =>
            simp only [List.cons_append, List.head?_cons, ne_eq, Option.some.injEq]
            intro hy
            subst hy
            have hmem : '{' ∈ rep := hv₁.subset (by simp)
            rcases (tryBrace_rep hm).2 '{' hmem with h2 | h2
            · exact absurd h2 (by decide)
            · exact absurd h2 (by decide)
      | none =>
        rw [braceSub_cons_none hm] at hv
        rcases List.suffix_cons_iff.mp hv with rfl | hv'
        · by_cases hc : c = '{'
          · subst hc
            exact brace_probe_pres rest hm
          · exact tryBrace_dead (by simp [hc])
        · exact ih rest (by simp at hs; omega) v hv'

theorem hash_gives_brace {c : Char} {v' rep after : List Char}
    (h : tryHash (c :: v') = some (rep, after)) : tryBrace v' ≠ none := by
  unfold tryHash at h
  split at h
  next r2 heq0 =>
    injection heq0 with hc0 heq1
    subst heq1
    simp only [] at h
    split at h
    · exact absurd h (by simp)
    next hwne =>
      split at h
      next r4 heq3 =>
        intro hcon
        simp only [tryBrace] at hcon
        have hr2head : ∀ b, r2.head? = some b → pyIsSpace b = false := by
          intro b hb
          cases r2 with
          | nil => simp at hb
          | cons x r2' =>
            simp at hb
            subst hb
            by_cases hx : isWordC x = true
            · exact word_not_space hx
            · simp [List.takeWhile_cons, hx] at hwne
        have hd1 : r2.dropWhile pyIsSpace = r2 :=
          (takeWhile_nil_of_head pyIsSpace r2 hr2head).2
        rw [hd1] at hcon
        rw [if_neg hwne] at hcon
        rw [heq3] at hcon
        rw [show ('}' :: r4).dropWhile pyIsSpace = '}' :: r4 from by
          rw [List.dropWhile_cons_of_neg]
          simp [pyIsSpace]] at hcon
        simp at hcon
      next => exact absurd h (by simp)
  next => exact absurd h (by simp)

theorem tryHash_none_of_brace_closed {r : List Char}
    (hb : ∀ v, v <:+ r → tryBrace v = none) :
    ∀ v, v <:+ r → tryHash v = none := by
  intro v hv
  cases hmv : tryHash v with
  | none => rfl
  | some pr =>
    obtain ⟨rep, after⟩ := pr
    exfalso
    cases v with
    | nil => exact Option.noConfusion hmv
    | cons c v' =>
      have hbv' : tryBrace v' = none := hb v' ((List.suffix_cons c v').trans hv)
      exact hash_gives_brace hmv hbv'

theorem repl_thread (X p q t : List Char) (hX : X ≠ []) (hq : q ≠ [])
    (h1 : ¬ X <:+: q) (h2 : ∀ k, k < X.length → 0 < k → ¬ X.take k <:+ q)
    (h3 : ∀ c ∈ X.tail, q.head? ≠ some c)
    (hns : ¬ X <:+: t) : ¬ X <:+: pyReplace p q t :=
  replAux_ifx_reflect p q X hq hX h1 (h2_of_take X q h2) h3 t.length t hns

theorem limit_thread (X : List Char) (x₀ : Char) (t : List Char)
    (hh : X.head? = some x₀) (hx1 : x₀ ∉ cs "limit ofset") (hx2 : isDigitC x₀ = false)
    (htl : ∀ c ∈ X.tail, c ≠ 'l')
    (hns : ¬ X <:+: t) : ¬ X <:+: limitSub t := by
  refine scanAux_ifx_reflect tryLimit X x₀ hh (fun _ _ _ h => tryLimit_dec h) ?_ ?_ ?_
    t.length t hns
  · intro s2 rep after h hrep
    have hd := (tryLimit_rep h).1
    rw [hrep] at hd
    simp at hd
  · intro s2 rep after h hmem
    rcases (tryLimit_rep h).2 x₀ hmem with hx | hx
    · exact hx1 hx
    · rw [hx2] at hx
      simp at hx
  · intro c hc s2 rep after h
    rw [(tryLimit_rep h).1]
    simp only [ne_eq, Option.some.injEq]
    intro he
    exact htl c hc he.symm

theorem rand_thread (X : List Char) (x₀ : Char) (t : List Char)
    (hh : X.head? = some x₀) (hx1 : x₀ ∉ cs "random()")
    (htl : ∀ c ∈ X.tail, c ≠ 'r')
    (hns : ¬ X <:+: t) : ¬ X <:+: randSub t :=
  randAux_ifx_reflect X x₀ hh hx1 htl t.length none t hns

theorem hash_thread (X : List Char) (x₀ : Char) (t : List Char)
    (hh : X.head? = some x₀) (hx1 : x₀ ≠ ':') (hx2 : isWordC x₀ = false)
    (htl : ∀ c ∈ X.tail, c ≠ ':')
    (hns : ¬ X <:+: t) : ¬ X <:+: hashSub t := by
  refine scanAux_ifx_reflect tryHash X x₀ hh (fun _ _ _ h => tryHash_dec h) ?_ ?_ ?_
    t.length t hns
  · intro s2 rep after h hrep
    have hd := (tryHash_rep h).1
    rw [hrep] at hd
    simp at hd
  · intro s2 rep after h hmem
    rcases (tryHash_rep h).2 x₀ hmem with hx | hx
    · exact hx1 hx
    · rw [hx2] at hx
      simp at hx
  · intro c hc s2 rep after h
    rw [(tryHash_rep h).1]
    simp only [ne_eq, Option.some.injEq]
    intro he
    exact htl c hc he.symm

theorem brace_thread (X : List Char) (x₀ : Char) (t : List Char)
    (hh : X.head? = some x₀) (hx1 : x₀ ≠ ':') (hx2 : isWordC x₀ = false)
    (htl : ∀ c ∈ X.tail, c ≠ ':')
    (hns : ¬ X <:+: t) : ¬ X <:+: braceSub t := by
  refine scanAux_ifx_reflect tryBrace X x₀ hh (fun _ _ _ h => tryBrace_dec h) ?_ ?_ ?_
    t.length t hns
  · intro s2 rep after h hrep
    have hd := (tryBrace_rep h).1
    rw [hrep] at hd
    simp at hd
  · intro s2 rep after h hmem
    rcases (tryBrace_rep h).2 x₀ hmem with hx | hx
    · exact hx1 hx
    · rw [hx2] at hx
      simp at hx
  · intro c hc s2 rep after h
    rw [(tryBrace_rep h).1]
    simp only [ne_eq, Option.some.injEq]
    intro he
    exact htl c hc he.symm

theorem prepare_facts (s : List Char) :
    btick ∉ prepare_sql_statically s ∧
    ¬ cs "> =" <:+: prepare_sql_statically s ∧
    ¬ cs "< =" <:+: prepare_sql_statically s ∧
    ¬ cs "! =" <:+: prepare_sql_statically s ∧
    ¬ cs "%s" <:+: prepare_sql_statically s ∧
    ¬ cs "%i" <:+: prepare_sql_statically s ∧
    ¬ cs "%d" <:+: prepare_sql_statically s ∧
    (∀ v, v <:+ prepare_sql_statically s → tryBrace v = none) ∧
    (∀ v, v <:+ prepare_sql_statically s → tryHash v = none) := by
  simp only [prepare_sql_statically]
  set s1 := pyReplace [btick] (cs "\"") s with hs1
  set s2 := pyReplace (cs "> =") (cs ">=") s1 with hs2
  set s3 := pyReplace (cs "< =") (cs "<=") s2 with hs3
  set s4 := pyReplace (cs "! =") (cs "!=") s3 with hs4
  set s5 := pyReplace (cs "! =") (cs "!=") s4 with hs5
  set s6 := pyReplace (cs "= =") (cs "=") s5 with hs6
  set s7 := pyReplace (cs "date_format") (cs "strftime") s6 with hs7
  set s8 := limitSub s7 with hs8
  set s9 := randSub s8 with hs9
  set s10 := pyReplace (cs "%s") (cs ":param_name") s9 with hs10
  set s11 := pyReplace (cs "%i") (cs ":param_name") s10 with hs11
  set s12 := pyReplace (cs "%d") (cs ":param_name") s11 with hs12
  set s13 := hashSub s12 with hs13
  have P13 : ∀ v, v <:+ braceSub s13 → tryBrace v = none :=
    brace_removes s13.length s13 (le_refl _)
  have P12 : ∀ v, v <:+ braceSub s13 → tryHash v = none :=
    tryHash_none_of_brace_closed P13
  have step_mem : ∀ (p q t : List Char), btick ∉ q → btick ∉ t →
      btick ∉ pyReplace p q t := by
    intro p q t hq ht hmem
    rcases replAux_mem p q t.length t btick hmem with h | h
    · exact hq h
    · exact ht h
  have hb1 : btick ∉ s1 := by
    rw [hs1]
    exact replAux_single_removes btick (cs "\"") (by decide) s.length s (le_refl _)
  have hb2 : btick ∉ s2 := by rw [hs2]; exact step_mem _ _ _ (by decide) hb1
  have hb3 : btick ∉ s3 := by rw [hs3]; exact step_mem _ _ _ (by decide) hb2
  have hb4 : btick ∉ s4 := by rw [hs4]; exact step_mem _ _ _ (by decide) hb3
  have hb5 : btick ∉ s5 := by rw [hs5]; exact step_mem _ _ _ (by decide) hb4
  have hb6 : btick ∉ s6 := by rw [hs6]; exact step_mem _ _ _ (by decide) hb5
  have hb7 : btick ∉ s7 := by rw [hs7]; exact step_mem _ _ _ (by decide) hb6
  have hb8 : btick ∉ s8 := by
    rw [hs8]
    intro hmem
    rcases scanAux_mem tryLimit (fun x => x ∈ cs "limit ofset" ∨ isDigitC x = true)
      (fun _ _ _ h => (tryLimit_rep h).2) (fun _ _ _ h => tryLimit_dec h)
      s7.length s7 btick hmem with h | h
    · rcases h with h | h
      · exact absurd h (by decide)
      · exact absurd h (by decide)
    · exact hb7 h
  have hb9 : btick ∉ s9 := by
    rw [hs9]
    intro hmem
    rcases randAux_mem s8.length none s8 btick hmem with h | h
    · exact absurd h (by decide)
    · exact hb8 h
  have hb10 : btick ∉ s10 := by rw [hs10]; exact step_mem _ _ _ (by decide) hb9
  have hb11 : btick ∉ s11 := by rw [hs11]; exact step_mem _ _ _ (by decide) hb10
  have hb12 : btick ∉ s12 := by rw [hs12]; exact step_mem _ _ _ (by decide) hb11
  have hb13 : btick ∉ s13 := by
    rw [hs13]
    intro hmem
    rcases scanAux_mem tryHash (fun x => x = ':' ∨ isWordC x = true)
      (fun _ _ _ h => (tryHash_rep h).2) (fun _ _ _ h => tryHash_dec h)
      s12.length s12 btick hmem with h | h
    · rcases h with h | h
      · exact absurd h (by decide)
      · exact absurd h (by decide)
    · exact hb12 h
  have hb14 : btick ∉ braceSub s13 := by
    intro hmem
    rcases scanAux_mem tryBrace (fun x => x = ':' ∨ isWordC x = true)
      (fun _ _ _ h => (tryBrace_rep h).2) (fun _ _ _ h => tryBrace_dec h)
      s13.length s13 btick hmem with h | h
    · rcases h with h | h
      · exact absurd h (by decide)
      · exact absurd h (by decide)
    · exact hb13 h
  have x2_2 : ¬ cs "> =" <:+: s2 := by
    rw [hs2]
    exact replAux_removes (cs "> =") (cs ">=") (by decide) (by decide) (by decide)
      (h2_of_take _ _ (by decide)) (by decide) s1.length s1 (le_refl _)
  have x2_3 : ¬ cs "> =" <:+: s3 := by
    rw [hs3]
    exact repl_thread _ _ _ _ (by decide) (by decide) (by decide) (by decide)
      (by decide) x2_2
  have x2_4 : ¬ cs "> =" <:+: s4 := by
    rw [hs4]
    exact repl_thread _ _ _ _ (by decide) (by decide) (by decide) (by decide)
      (by decide) x2_3
  have x2_5 : ¬ cs "> =" <:+: s5 := by
    rw [hs5]
    exact repl_thread _ _ _ _ (by decide) (by decide) (by decide) (by decide)
      (by decide) x2_4
  have x2_6 : ¬ cs "> =" <:+: s6 := by
    rw [hs6]
    exact replAux_eq_ifx_reflect '>' (by decide) s5.length s5 x2_5
  have x2_7 : ¬ cs "> =" <:+: s7 := by
    rw [hs7]
    exact repl_thread _ _ _ _ (by decide) (by decide) (by decide) (by decide)
      (by decide) x2_6
  have x2_8 : ¬ cs "> =" <:+: s8 := by
    rw [hs8]
    exact limit_thread _ '>' _ (by decide) (by decide) (by decide) (by decide) x2_7
  have x2_9 : ¬ cs "> =" <:+: s9 := by
    rw [hs9]
    exact rand_thread _ '>' _ (by decide) (by decide) (by decide) x2_8
  have x2_10 : ¬ cs "> =" <:+: s10 := by
    rw [hs10]
    exact repl_thread _ _ _ _ (by decide) (by decide) (by decide) (by decide)
      (by decide) x2_9
  have x2_11 : ¬ cs "> =" <:+: s11 := by
    rw [hs11]
    exact repl_thread _ _ _ _ (by decide) (by decide) (by decide) (by decide)
      (by decide) x2_10
  have x2_12 : ¬ cs "> =" <:+: s12 := by
    rw [hs12]
    exact repl_thread _ _ _ _ (by decide) (by decide) (by decide) (by decide)
      (by decide) x2_11
  have x2_13 : ¬ cs "> =" <:+: s13 := by
    rw [hs13]
    exact hash_thread _ '>' _ (by decide) (by decide) (by decide) (by decide) x2_12
  have x2_14 : ¬ cs "> =" <:+: braceSub s13 :=
    brace_thread _ '>' _ (by decide) (by decide) (by decide) (by decide) x2_13
  have x3_3 : ¬ cs "< =" <:+: s3 := by
    rw [hs3]
    exact replAux_removes (cs "< =") (cs "<=") (by decide) (by decide) (by decide)
      (h2_of_take _ _ (by decide)) (by decide) s2.length s2 (le_refl _)
  have x3_4 : ¬ cs "< =" <:+: s4 := by
    rw [hs4]
    exact repl_thread _ _ _ _ (by decide) (by decide) (by decide) (by decide)
      (by decide) x3_3
  have x3_5 : ¬ cs "< =" <:+: s5 := by
    rw [hs5]
    exact repl_thread _ _ _ _ (by decide) (by decide) (by decide) (by decide)
      (by decide) x3_4
  have x3_6 : ¬ cs "< =" <:+: s6 := by
    rw [hs6]
    exact replAux_eq_ifx_reflect '<' (by decide) s5.length s5 x3_5
  have x3_7 : ¬ cs "< =" <:+: s7 := by
    rw [hs7]
    exact repl_thread _ _ _ _ (by decide) (by decide) (by decide) (by decide)
      (by decide) x3_6
  have x3_8 : ¬ cs "< =" <:+: s8 := by
    rw [hs8]
    exact limit_thread _ '<' _ (by decide) (by decide) (by decide) (by decide) x3_7
  have x3_9 : ¬ cs "< =" <:+: s9 := by
    rw [hs9]
    exact rand_thread _ '<' _ (by decide) (by decide) (by decide) x3_8
  have x3_10 : ¬ cs "< =" <:+: s10 := by
    rw [hs10]
    exact repl_thread _ _ _ _ (by decide) (by decide) (by decide) (by decide)
      (by decide) x3_9
  have x3_11 : ¬ cs "< =" <:+: s11 := by
    rw [hs11]
    exact repl_thread _ _ _ _ (by decide) (by decide) (by decide) (by decide)
      (by decide) x3_10
  have x3_12 : ¬ cs "< =" <:+: s12 := by
    rw [hs12]
    exact repl_thread _ _ _ _ (by decide) (by decide) (by decide) (by decide)
      (by decide) x3_11
  have x3_13 : ¬ cs "< =" <:+: s13 := by
    rw [hs13]
    exact hash_thread _ '<' _ (by decide) (by decide) (by decide) (by decide) x3_12
  have x3_14 : ¬ cs "< =" <:+: braceSub s13 :=
    brace_thread _ '<' _ (by decide) (by decide) (by decide) (by decide) x3_13
  have x4_4 : ¬ cs "! =" <:+: s4 := by
    rw [hs4]
    exact replAux_removes (cs "! =") (cs "!=") (by decide) (by decide) (by decide)
      (h2_of_take _ _ (by decide)) (by decide) s3.length s3 (le_refl _)
  have x4_5 : ¬ cs "! =" <:+: s5 := by
    rw [hs5]
    exact repl_thread _ _ _ _ (by decide) (by decide) (by decide) (by decide)
      (by decide) x4_4
  have x4_6 : ¬ cs "! =" <:+: s6 := by
    rw [hs6]
    exact replAux_eq_ifx_reflect '!' (by decide) s5.length s5 x4_5
  have x4_7 : ¬ cs "! =" <:+: s7 := by
    rw [hs7]
    exact repl_thread _ _ _ _ (by decide) (by decide) (by decide) (by decide)
      (by decide) x4_6
  have x4_8 : ¬ cs "! =" <:+: s8 := by
    rw [hs8]
    exact limit_thread _ '!' _ (by decide) (by decide) (by decide) (by decide) x4_7
  have x4_9 : ¬ cs "! =" <:+: s9 := by
    rw [hs9]
    exact rand_thread _ '!' _ (by decide) (by decide) (by decide) x4_8
  have x4_10 : ¬ cs "! =" <:+: s10 := by
    rw [hs10]
    exact repl_thread _ _ _ _ (by decide) (by decide) (by decide) (by decide)
      (by decide) x4_9
  have x4_11 : ¬ cs "! =" <:+: s11 := by
    rw [hs11]
    exact repl_thread _ _ _ _ (by decide) (by decide) (by decide) (by decide)
      (by decide) x4_10
  have x4_12 : ¬ cs "! =" <:+: s12 := by
    rw [hs12]
    exact repl_thread _ _ _ _ (by decide) (by decide) (by decide) (by decide)
      (by decide) x4_11
  have x4_13 : ¬ cs "! =" <:+: s13 := by
    rw [hs13]
    exact hash_thread _ '!' _ (by decide) (by decide) (by decide) (by decide) x4_12
  have x4_14 : ¬ cs "! =" <:+: braceSub s13 :=
    brace_thread _ '!' _ (by decide) (by decide) (by decide) (by decide) x4_13
  have x9_10 : ¬ cs "%s" <:+: s10 := by
    rw [hs10]
    exact replAux_removes (cs "%s") (cs ":param_name") (by decide) (by decide)
      (by decide) (h2_of_take _ _ (by decide)) (by decide) s9.length s9 (le_refl _)
  have x9_11 : ¬ cs "%s" <:+: s11 := by
    rw [hs11]
    exact repl_thread _ _ _ _ (by decide) (by decide) (by decide) (by decide)
      (by decide) x9_10
  have x9_12 : ¬ cs "%s" <:+: s12 := by
    rw [hs12]
    exact repl_thread _ _ _ _ (by decide) (by decide) (by decide) (by decide)
      (by decide) x9_11
  have x9_13 : ¬ cs "%s" <:+: s13 := by
    rw [hs13]
    exact hash_thread _ '%' _ (by decide) (by decide) (by decide) (by decide) x9_12
  have x9_14 : ¬ cs "%s" <:+: braceSub s13 :=
    brace_thread _ '%' _ (by decide) (by decide) (by decide) (by decide) x9_13
  have x10_11 : ¬ cs "%i" <:+: s11 := by
    rw [hs11]
    exact replAux_removes (cs "%i") (cs ":param_name") (by decide) (by decide)
      (by decide) (h2_of_take _ _ (by decide)) (by decide) s10.length s10 (le_refl _)
  have x10_12 : ¬ cs "%i" <:+: s12 := by
    rw [hs12]
    exact repl_thread _ _ _ _ (by decide) (by decide) (by decide) (by decide)
      (by decide) x10_11
  have x10_13 : ¬ cs "%i" <:+: s13 := by
    rw [hs13]
    exact hash_thread _ '%' _ (by decide) (by decide) (by decide) (by decide) x10_12
  have x10_14 : ¬ cs "%i" <:+: braceSub s13 :=
    brace_thread _ '%' _ (by decide) (by decide) (by decide) (by decide) x10_13
  have x11_12 : ¬ cs "%d" <:+: s12 := by
    rw [hs12]
    exact replAux_removes (cs "%d") (cs ":param_name") (by decide) (by decide)
      (by decide) (h2_of_take _ _ (by decide)) (by decide) s11.length s11 (le_refl _)
  have x11_13 : ¬ cs "%d" <:+: s13 := by
    rw [hs13]
    exact hash_thread _ '%' _ (by decide) (by decide) (by decide) (by decide) x11_12
  have x11_14 : ¬ cs "%d" <:+: braceSub s13 :=
    brace_thread _ '%' _ (by decide) (by decide) (by decide) (by decide) x11_13
  exact ⟨hb14, x2_14, x3_14, x4_14, x9_14, x10_14, x11_14, P13, P12⟩

/-- C3 (counterexample): dialect normalization is not idempotent — the `= =`
collapsing replace is applied left-to-right once, so `a = = = b` normalizes
to `a = = b`, which a second normalization pass rewrites again. -/
theorem normalize_not_idempotent :
    prepare_sql_statically (prepare_sql_statically (cs "a = = = b")) ≠
      prepare_sql_statically (cs "a = = = b") := by
  decide

/-- C3 (amended): normalization is idempotent exactly on the residuals it
leaves alone; concretely, if the normalized output `r` contains no `= =`
substring, no `date_format` substring, no match of the LIMIT-rewrite regex
and no boundary-respecting match of the RAND-rewrite regex, then a second
normalization pass returns `r` unchanged. (The backtick, spaced-operator,
placeholder, `#\x7b..\x7d` and `\x7b..\x7d` rewrites can never re-fire on
any output of the normalizer, so only these four residual patterns can
break idempotence.) -/
theorem normalize_conditionally_idempotent (s : List Char)
    (h1 : ¬ cs "= =" <:+: prepare_sql_statically s)
    (h2 : ¬ cs "date_format" <:+: prepare_sql_statically s)
    (h3 : hasScanM tryLimit (prepare_sql_statically s) = false)
    (h4 : hasRandM none (prepare_sql_statically s) = false) :
    prepare_sql_statically (prepare_sql_statically s) = prepare_sql_statically s := by
  obtain ⟨P1, P2, P3, P4, P9, P10, P11, P13, P12⟩ := prepare_facts s
  set r := prepare_sql_statically s with hr
  have t1 : pyReplace [btick] (cs "\"") r = r :=
    replAux_id [btick] (cs "\"") r.length r (le_refl _)
      (fun v hv hp => P1 (hv.subset (hp.subset (by simp))))
  have t2 : pyReplace (cs "> =") (cs ">=") r = r :=
    replAux_id _ _ r.length r (le_refl _)
      (fun v hv hp => P2 (ifx_of_sfx_ifx hp.isInfix hv))
  have t3 : pyReplace (cs "< =") (cs "<=") r = r :=
    replAux_id _ _ r.length r (le_refl _)
      (fun v hv hp => P3 (ifx_of_sfx_ifx hp.isInfix hv))
  have t4 : pyReplace (cs "! =") (cs "!=") r = r :=
    replAux_id _ _ r.length r (le_refl _)
      (fun v hv hp => P4 (ifx_of_sfx_ifx hp.isInfix hv))
  have t6 : pyReplace (cs "= =") (cs "=") r = r :=
    replAux_id _ _ r.length r (le_refl _)
      (fun v hv hp => h1 (ifx_of_sfx_ifx hp.isInfix hv))
  have t7 : pyReplace (cs "date_format") (cs "strftime") r = r :=
    replAux_id _ _ r.length r (le_refl _)
      (fun v hv hp => h2 (ifx_of_sfx_ifx hp.isInfix hv))
  have t8 : limitSub r = r := by
    apply scanAux_id tryLimit r.length r
    intro v hv
    by_cases hv0 : v = []
    · subst hv0
      rfl
    · exact hasScanM_suffix tryLimit r h3 v hv hv0
  have t9 : randSub r = r := randAux_id_of_hasRandM r.length none r h4
  have t10 : pyReplace (cs "%s") (cs ":param_name") r = r :=
    replAux_id _ _ r.length r (le_refl _)
      (fun v hv hp => P9 (ifx_of_sfx_ifx hp.isInfix hv))
  have t11 : pyReplace (cs "%i") (cs ":param_name") r = r :=
    replAux_id _ _ r.length r (le_refl _)
      (fun v hv hp => P10 (ifx_of_sfx_ifx hp.isInfix hv))
  have t12 : pyReplace (cs "%d") (cs ":param_name") r = r :=
    replAux_id _ _ r.length r (le_refl _)
      (fun v hv hp => P11 (ifx_of_sfx_ifx hp.isInfix hv))
  have t13 : hashSub r = r := scanAux_id tryHash r.length r P12
  have t14 : braceSub r = r := scanAux_id tryBrace r.length r P13
  simp only [prepare_sql_statically]
  rw [t1, t2, t3, t4, t4, t6, t7, t8, t9, t10, t11, t12, t13, t14]

set_option maxRecDepth 200000 in
/-- Witness for C3's amended theorem: a SQL statement exercising every
rewrite of the pipeline whose normal form satisfies the four residual
conditions, so a second pass is the identity. -/
theorem normalize_conditionally_idempotent_witness :
    ((¬ cs "= =" <:+: prepare_sql_statically
        (cs "SELECT a FROM `t` WHERE a > = 1 AND b ! = 2 LIMIT 10, 5 AND c = rand() AND d = %s AND e = #and f =") ∧
      ¬ cs "date_format" <:+: prepare_sql_statically
        (cs "SELECT a FROM `t` WHERE a > = 1 AND b ! = 2 LIMIT 10, 5 AND c = rand() AND d = %s AND e = #and f =")) ∧
      hasScanM tryLimit (prepare_sql_statically
        (cs "SELECT a FROM `t` WHERE a > = 1 AND b ! = 2 LIMIT 10, 5 AND c = rand() AND d = %s AND e = #and f =")) = false ∧
      hasRandM none (prepare_sql_statically
        (cs "SELECT a FROM `t` WHERE a > = 1 AND b ! = 2 LIMIT 10, 5 AND c = rand() AND d = %s AND e = #and f =")) = false) ∧
    prepare_sql_statically (prepare_sql_statically
        (cs "SELECT a FROM `t` WHERE a > = 1 AND b ! = 2 LIMIT 10, 5 AND c = rand() AND d = %s AND e = #and f =")) =
      prepare_sql_statically
        (cs "SELECT a FROM `t` WHERE a > = 1 AND b ! = 2 LIMIT 10, 5 AND c = rand() AND d = %s AND e = #and f =") :=
  ⟨⟨⟨by decide, by decide⟩, by decide, by decide⟩,
   normalize_conditionally_idempotent
     (cs "SELECT a FROM `t` WHERE a > = 1 AND b ! = 2 LIMIT 10, 5 AND c = rand() AND d = %s AND e = #and f =")
     (by decide) (by decide) (by decide) (by decide)⟩

/-! ## Claims about the Type Unifier -/

/-- C2 counterexample: `unify_type("")` raises `IndexError` (evaluating
`t[0]` on the empty processed string), modelled by the `none` result, so
`unify_type` is not total on the empty string. -/
theorem unify_type_not_total_on_empty : unify_type (some (cs "")) = none := by decide

/-- C2 (amended): `unify_type(None) = ("OTHER", "OTHER")`, and for string
inputs `unify_type` returns a pair exactly when one of the early rules fires
(`array`, bare `number`/`numeric`/`decimal`, or a matched precision qualifier
on a `number`/`decimal` type) or the stripped, lower-cased input with
parenthesised qualifiers removed is non-empty; on the remaining inputs (empty
or whitespace-only strings, bare qualifiers) it raises `IndexError`. -/
theorem unify_type_totality :
    unify_type none = some (cs "OTHER", cs "OTHER") ∧
    ∀ s : List Char,
      (unify_type (some s)).isSome ↔
        (pyStrip (pyLower s) = cs "array"
         ∨ (pyLower (pyStrip s) = cs "number" ∨ pyLower (pyStrip s) = cs "numeric"
            ∨ pyLower (pyStrip s) = cs "decimal")
         ∨ ((csub (cs "number") (pyLower (pyStrip s))
             || csub (cs "decimal") (pyLower (pyStrip s))) = true
            ∧ (findPrec (pyLower (pyStrip s))).isSome)
         ∨ subParens (pyLower (pyStrip s)) ≠ []) := by
  constructor
  · rfl
  · intro s
    simp only [unify_type]
    split_ifs with h1 h2 h3
    · simp [h1]
    · simp only [Bool.or_eq_true, decide_eq_true_eq] at h2
      simp only [Option.isSome_some, true_iff]
      exact Or.inr (Or.inl (by tauto))
    · cases hp : findPrec (pyLower (pyStrip s)) with
      | some pr =>
        simp only [Option.isSome_some, true_iff]
        exact Or.inr (Or.inr (Or.inl ⟨h3, by simp [hp]⟩))
      | none =>
        simp only [Bool.or_eq_true, decide_eq_true_eq, not_or] at h2
        simp only [unifyTail]
        cases ht : subParens (pyLower (pyStrip s)) with
        | nil =>
          simp only [Option.isSome_none, Bool.false_eq_true, false_iff, not_or]
          refine ⟨h1, by tauto, ?_, by simp [ht]⟩
          rintro ⟨-, hsome⟩
          simp [hp] at hsome
        | cons c rest =>
          simp only [Option.isSome_some, true_iff]
          exact Or.inr (Or.inr (Or.inr (by simp [ht])))
    · simp only [Bool.or_eq_true, decide_eq_true_eq, not_or] at h2
      simp only [unifyTail]
      cases ht : subParens (pyLower (pyStrip s)) with
      | nil =>
        simp only [Option.isSome_none, Bool.false_eq_true, false_iff, not_or]
        refine ⟨h1, by tauto, ?_, by simp [ht]⟩
        rintro ⟨hor, -⟩
        exact h3 hor
      | cons c rest =>
        simp only [Option.isSome_some, true_iff]
        exact Or.inr (Or.inr (Or.inr (by simp [ht])))

/-- The spec's unsigned heuristic for C6: the (lower-cased) input contains
the substring `unsigned`, or the first character after stripping and
removing parenthesised qualifiers is `u`. -/
def unsignedHeur (s : List Char) : Bool :=
  csub (cs "unsigned") (pyLower s)
    || ((subParens (pyLower (pyStrip s))).head? = some 'u')

/-- Spelling variants of the 8-bit integer type used to check C6. -/
def int8Variants : List (List Char) :=
  [cs "tinyint", cs "TINYINT", cs "int1", cs "bit", cs "Bit", cs "INT1", cs "TinyInt",
   cs "tinyint(1)", cs "bit(8)", cs "utinyint", cs "ubit", cs "uint1", cs "uint8",
   cs "unsigned tinyint", cs "tinyint unsigned", cs "TINYINT UNSIGNED",
   cs "int1 unsigned", cs "signed tinyint", cs "  tinyint  "]

/-- C6: every spelling variant of the 8-bit integer type resolves to base
category `Int`, with the canonical name `UInt8` exactly when the unsigned
heuristic (substring `unsigned`, or leading `u` after stripping and removing
parenthesised qualifiers) applies, and `Int8` otherwise. -/
theorem int8_variants_resolve :
    ∀ s ∈ int8Variants,
      unify_type (some s) =
        some ((if unsignedHeur s then cs "UInt8" else cs "Int8"), cs "Int") := by
  decide

/-- Witness for C6 at the concrete variant `tinyint`. -/
theorem int8_variants_resolve_witness :
    unify_type (some (cs "tinyint")) =
      some ((if unsignedHeur (cs "tinyint") then cs "UInt8" else cs "Int8"), cs "Int") :=
  int8_variants_resolve (cs "tinyint") (by decide)

/-- C10: `unify_type` is case-insensitive — resolving a raw type spelling and
resolving its lower-cased spelling give the same canonical name and category
(and the same raising behaviour). -/
theorem unify_type_case_insensitive (s : List Char) :
    unify_type (some s) = unify_type (some (pyLower s)) := by
  have k1 : pyStrip (pyLower (pyLower s)) = pyStrip (pyLower s) := by
    rw [pyLower_idem]
  have k2 : pyLower (pyStrip (pyLower s)) = pyLower (pyStrip s) := by
    rw [strip_lower_comm, pyLower_idem]
  simp only [unify_type, k1, k2]

/-! ## Claims about the Placeholder Neutralizer and Execution Validator -/

mutual

theorem collectPh_map_visit (e : SqlExpr) :
    collectPh (mapExpr visit_placeholders_turn_null e)
      = List.replicate (countPh e) (cs "null") := by
  match e with
  | .value (.placeholder tok) => rfl
  | .value (.lit tag payload) => rfl
  | .node tag children =>
    show collectPhs (mapExprs visit_placeholders_turn_null children)
        = List.replicate (countPhs children) (cs "null")
    exact collectPhs_map_visit children

theorem collectPhs_map_visit (es : List SqlExpr) :
    collectPhs (mapExprs visit_placeholders_turn_null es)
      = List.replicate (countPhs es) (cs "null") := by
  match es with
  | [] => rfl
  | e :: rest =>
    show collectPh (mapExpr visit_placeholders_turn_null e)
        ++ collectPhs (mapExprs visit_placeholders_turn_null rest)
      = List.replicate (countPh e + countPhs rest) (cs "null")
    rw [collectPh_map_visit e, collectPhs_map_visit rest, List.replicate_add]

end

/-- C4: placeholder neutralization is a single tree rewrite — for every
parsed statement (with any number N of placeholders, including 0) the
mutation yields exactly one rewritten statement, not `3^N` candidates, and
in the rewritten tree every placeholder node's value is the SQL `null`
literal (the list of placeholder tokens is N copies of `null`), so the
rendered statement contains no placeholder tokens. -/
theorem placeholder_neutralization_single (ast : SqlExpr) :
    (mutate_expressions [ast] visit_placeholders_turn_null).length = 1 ∧
    collectPh (mapExpr visit_placeholders_turn_null ast)
      = List.replicate (countPh ast) (cs "null") :=
  ⟨rfl, collectPh_map_visit ast⟩

/-- C9: the execution validator is total at its boundary — for every SQL
string and every behaviour of the external engine, the result's
`successful` flag equals `error.isNone`, and on success all three plan
fields are set. -/
theorem execution_validator_total (sql : List Char) (O : EngineOracles) :
    ((try_to_mock_and_execute_query sql O).successful
        = (try_to_mock_and_execute_query sql O).error.isNone) ∧
    ((try_to_mock_and_execute_query sql O).successful = false ∨
      ((try_to_mock_and_execute_query sql O).logical_plan.isSome ∧
       (try_to_mock_and_execute_query sql O).logical_plan_optimized.isSome ∧
       (try_to_mock_and_execute_query sql O).physical_plan.isSome)) := by
  unfold try_to_mock_and_execute_query
  rcases hp : O.parse (prepare_sql_statically sql) with e | ast
  · simp [hp]
  · simp only [hp]
    rcases hm : mutate_expressions ast visit_placeholders_turn_null with _ | ⟨nulled, tl⟩
    · simp [hm]
    · simp only [hm]
      rcases hx : O.exec (explainWrapper ++ nulled) with e | rows
      · simp [hx]
      · simp only [hx]
        match rows with
        | [] => simp
        | [r0] => simp
        | [r0, r1] => simp
        | r0 :: r1 :: r2 :: rtl =>
          rcases h0 : O.loadJson r0 with e | j0s
          · simp [h0]
          · simp only [h0]
            match j0s with
            | [] => simp
            | j0 :: j0tl =>
              rcases h1 : O.loadJson r1 with e | j1s
              · simp [h1]
              · simp only [h1]
                match j1s with
                | [] => simp
                | j1 :: j1tl =>
                  rcases h2 : O.loadJson r2 with e | j2s
                  · simp [h2]
                  · simp only [h2]
                    match j2s with
                    | [] => simp
                    | j2 :: j2tl => simp

/-! ## Claims about the Schema Synthesizer and Repository Orchestrator -/

/-- C1: the code creates each sandbox table with `CREATE TABLE IF NOT
EXISTS` and never inserts the two seed rows of the specification (the
per-category example-value helper `base_type_to_example_value` is defined
but never called), so immediately after a successful synthesis `COUNT(*)`
is 0, not 2: evaluated here for the table `users(id Int, name Text)`. -/
theorem synthesized_table_rowcount_zero :
    (match create_tables 1 [usersShape] (fun _ => false) with
     | .ok (_, _, _, _, sb) => rowCount sb (qnameOf usersShape)
     | .error _ => none) = some 0 ∧
    (some 0 : Option Nat) ≠ some 2 := by
  constructor
  · decide
  · decide

/-- Characterization of `create_tables_go` when no `CREATE SCHEMA`
statement fails: it returns exactly the tables whose own `CREATE TABLE`
succeeded, one recorded error per failed table, and matching counters. -/
theorem create_tables_go_spec (repo : Nat) (fail : List Char → Bool) :
    ∀ (shapes : List TabShape) (sb : Sandbox),
      (∀ t ∈ shapes, (schemaStmtOf t).all (fun stmt => !(fail stmt)) = true) →
      ∃ sb',
        create_tables_go repo fail shapes sb =
          .ok ((shapes.filter (fun t => !(fail (ctStmtOf t)))).map matOf,
               (shapes.filter (fun t => fail (ctStmtOf t))).map (errOf repo),
               (shapes.filter (fun t => !(fail (ctStmtOf t)))).length,
               (shapes.filter (fun t => fail (ctStmtOf t))).length, sb') := by
  intro shapes
  induction shapes with
  | nil => exact fun sb _ => ⟨sb, rfl⟩
  | cons t ts ih =>
    intro sb h
    have hts : ∀ t' ∈ ts, (schemaStmtOf t').all (fun stmt => !(fail stmt)) = true :=
      fun t' ht' => h t' (List.mem_cons_of_mem _ ht')
    have hstep : ∀ sb0 : Sandbox, ∃ sb',
        (if fail (ctStmtOf t) then
          match create_tables_go repo fail ts sb0 with
          | Except.error e => Except.error e
          | Except.ok (mats, errs, ns, nf, sb') =>
            Except.ok (mats, errOf repo t :: errs, ns, nf + 1, sb')
        else
          match create_tables_go repo fail ts (execCreateTable sb0 (qnameOf t)) with
          | Except.error e => Except.error e
          | Except.ok (mats, errs, ns, nf, sb') =>
            Except.ok (matOf t :: mats, errs, ns + 1, nf, sb')
          : Except (List Char) (List MatTable × List SchemaErr × Nat × Nat × Sandbox)) =
          .ok (((t :: ts).filter (fun t => !(fail (ctStmtOf t)))).map matOf,
               ((t :: ts).filter (fun t => fail (ctStmtOf t))).map (errOf repo),
               ((t :: ts).filter (fun t => !(fail (ctStmtOf t)))).length,
               ((t :: ts).filter (fun t => fail (ctStmtOf t))).length, sb') := by
      intro sb0
      by_cases hf : fail (ctStmtOf t)
      · obtain ⟨sb', hsb'⟩ := ih sb0 hts
        refine ⟨sb', ?_⟩
        rw [if_pos hf, hsb']
        simp [List.filter_cons, hf]
      · obtain ⟨sb', hsb'⟩ := ih (execCreateTable sb0 (qnameOf t)) hts
        refine ⟨sb', ?_⟩
        rw [if_neg hf, hsb']
        simp [List.filter_cons, hf]
    simp only [create_tables_go]
    cases hs : schemaStmtOf t with
    | some stmt =>
      have hfs : fail stmt = false := by
        have := h t (List.mem_cons_self t ts)
        rw [hs] at this
        simpa using this
      dsimp only
      rw [hfs]
      simp only [Bool.false_eq_true, if_false]
      exact hstep _
    | none =>
      dsimp only
      exact hstep sb

/-- C5 (amended): when the unguarded `CREATE SCHEMA` statements succeed, a
`CREATE TABLE` failure for one table records a `SchemaError` and excludes
only that table; every sibling whose own DDL succeeds is materialized, and
statement validation over the repository proceeds with its outcome
independent of the schema errors. -/
theorem schema_failure_locality (repo : Nat) (shapes : List TabShape)
    (queries : List (Nat × List Char)) (fail ok : List Char → Bool)
    (h : ∀ t ∈ shapes, (schemaStmtOf t).all (fun stmt => !(fail stmt)) = true) :
    ∃ sb recs ns nf qerrs,
      create_tables repo shapes fail =
        .ok ((shapes.filter (fun t => !(fail (ctStmtOf t)))).map matOf,
             (shapes.filter (fun t => fail (ctStmtOf t))).map (errOf repo),
             (shapes.filter (fun t => !(fail (ctStmtOf t)))).length,
             (shapes.filter (fun t => fail (ctStmtOf t))).length, sb) ∧
      execute_queries repo queries ok 0 = (recs, ns, nf, qerrs) ∧
      iterate_through_repos [⟨repo, shapes, queries⟩] fail ok =
        .ok (recs, ns, nf,
             (shapes.filter (fun t => fail (ctStmtOf t))).map (errOf repo), qerrs) := by
  obtain ⟨sb', hsb'⟩ := create_tables_go_spec repo fail shapes ⟨[], []⟩ h
  rcases heq : execute_queries repo queries ok 0 with ⟨recs, ns, nf, qerrs⟩
  refine ⟨sb', recs, ns, nf, qerrs, hsb', rfl, ?_⟩
  simp only [iterate_through_repos, iterate_go, create_tables, hsb', heq]
  simp

/-- Witness for C5 at a concrete repository: the dotted table's `CREATE
TABLE` fails, the sibling `users` succeeds. -/
theorem schema_failure_locality_witness :
    ∃ sb recs ns nf qerrs,
      create_tables 7 [dottedShape, usersShape] tableFailOracle =
        .ok (([dottedShape, usersShape].filter
                (fun t => !(tableFailOracle (ctStmtOf t)))).map matOf,
             ([dottedShape, usersShape].filter
                (fun t => tableFailOracle (ctStmtOf t))).map (errOf 7),
             ([dottedShape, usersShape].filter
                (fun t => !(tableFailOracle (ctStmtOf t)))).length,
             ([dottedShape, usersShape].filter
                (fun t => tableFailOracle (ctStmtOf t))).length, sb) ∧
      execute_queries 7 [(1, cs "SELECT 1")] (fun _ => true) 0 = (recs, ns, nf, qerrs) ∧
      iterate_through_repos [⟨7, [dottedShape, usersShape], [(1, cs "SELECT 1")]⟩]
          tableFailOracle (fun _ => true) =
        .ok (recs, ns, nf,
             ([dottedShape, usersShape].filter
                (fun t => tableFailOracle (ctStmtOf t))).map (errOf 7), qerrs) :=
  schema_failure_locality 7 [dottedShape, usersShape] [(1, cs "SELECT 1")]
    tableFailOracle (fun _ => true) (by decide)

/-- C5 counterexample: a DDL failure at the unguarded `CREATE SCHEMA`
statement of one dot-qualified table aborts the whole repository pass —
the sibling `users`, whose own DDL succeeds, is not materialized and no
statement validation happens. -/
theorem schema_failure_escapes :
    errPayload (create_tables 7 [dottedShape, usersShape] schemaFailOracle) =
      some (cs "CREATE SCHEMA IF NOT EXISTS " ++ quote_name (cs "sch")) ∧
    errPayload (iterate_through_repos
        [⟨7, [dottedShape, usersShape], [(1, cs "SELECT 1")]⟩]
        schemaFailOracle (fun _ => true)) =
      some (cs "CREATE SCHEMA IF NOT EXISTS " ++ quote_name (cs "sch")) := by
  constructor
  · decide
  · decide

/-- Characterization of `execute_queries_go`: one `executable_queries`
record per successful query, with consecutive ids continuing from
`so_far + nSucc`, and one error row per failed query. -/
theorem execute_queries_go_spec (repo so_far : Nat) (ok : List Char → Bool) :
    ∀ (qs : List (Nat × List Char)) (nSucc nFail : Nat)
      (recs : List (Nat × Nat)) (errs : List QErr),
      execute_queries_go repo so_far ok qs nSucc nFail recs errs =
        (recs ++ (List.range' (so_far + nSucc + 1)
              (qs.filter (fun q => ok (prepare_sql_for_duckdb q.2))).length).zip
              ((qs.filter (fun q => ok (prepare_sql_for_duckdb q.2))).map Prod.fst),
         nSucc + (qs.filter (fun q => ok (prepare_sql_for_duckdb q.2))).length,
         nFail + (qs.filter (fun q => !(ok (prepare_sql_for_duckdb q.2)))).length,
         errs ++ (qs.filter (fun q => !(ok (prepare_sql_for_duckdb q.2)))).map
              (fun q => ⟨repo, q.1, prepare_sql_for_duckdb q.2⟩)) := by
  intro qs
  induction qs with
  | nil =>
    intro nSucc nFail recs errs
    simp [execute_queries_go]
  | cons q rest ih =>
    intro nSucc nFail recs errs
    obtain ⟨qid, sql⟩ := q
    by_cases hok : ok (prepare_sql_for_duckdb sql)
    · simp only [execute_queries_go, hok, if_true]
      rw [ih]
      simp only [List.filter_cons, hok, if_true, List.length_cons, List.map_cons,
        List.range'_succ, List.zip_cons_cons, List.append_assoc, List.singleton_append,
        decide_True, Bool.not_true, Bool.false_eq_true, if_false]
      have e1 : so_far + (nSucc + 1) + 1 = so_far + nSucc + 1 + 1 := by omega
      have e2 : nSucc + 1 + (List.filter
            (fun q => ok (prepare_sql_for_duckdb q.2)) rest).length =
          nSucc + ((List.filter (fun q => ok (prepare_sql_for_duckdb q.2)) rest).length
            + 1) := by omega
      rw [e1, e2]
    · simp only [execute_queries_go, hok, if_false, Bool.false_eq_true]
      rw [ih]
      simp only [List.filter_cons, hok, List.length_cons, List.map_cons,
        List.append_assoc, List.singleton_append, decide_False, Bool.not_false,
        if_true, Bool.false_eq_true, if_false]
      have e2 : nFail + 1 + (List.filter
            (fun q => !(ok (prepare_sql_for_duckdb q.2))) rest).length =
          nFail + ((List.filter (fun q => !(ok (prepare_sql_for_duckdb q.2))) rest).length
            + 1) := by omega
      rw [e2]

/-- Per-repository accumulation of the success/failure streams across
`iterate_go`: ids of the success records stay the consecutive range from 1,
and each stream's counter adds exactly one per result of its kind. -/
theorem iterate_go_spec (fail ok : List Char → Bool) :
    ∀ (repos : List RepoInput) (nS nF : Nat) (recs : List (Nat × Nat))
      (serrs : List SchemaErr) (qerrs : List QErr)
      (recsR : List (Nat × Nat)) (ns nf : Nat) (serrsR : List SchemaErr)
      (qerrsR : List QErr),
      iterate_go fail ok repos nS nF recs serrs qerrs = .ok (recsR, ns, nf, serrsR, qerrsR) →
      recs.map Prod.fst = List.range' 1 nS →
      qerrs.length = nF →
      recsR.map Prod.fst = List.range' 1 ns ∧
      ns = nS + (repos.map (fun r =>
        (r.queries.filter (fun q => ok (prepare_sql_for_duckdb q.2))).length)).sum ∧
      nf = nF + (repos.map (fun r =>
        (r.queries.filter (fun q => !(ok (prepare_sql_for_duckdb q.2)))).length)).sum ∧
      qerrsR.length = nf := by
  intro repos
  induction repos with
  | nil =>
    intro nS nF recs serrs qerrs recsR ns nf serrsR qerrsR h hrecs hqerrs
    simp only [iterate_go, Except.ok.injEq, Prod.mk.injEq] at h
    obtain ⟨h1, h2, h3, _, h5⟩ := h
    subst h1; subst h2; subst h3; subst h5
    simpa using ⟨hrecs, hqerrs⟩
  | cons r rs ih =>
    intro nS nF recs serrs qerrs recsR ns nf serrsR qerrsR h hrecs hqerrs
    simp only [iterate_go] at h
    rcases hct : create_tables r.repo_id r.shapes fail with e | okres
    · rw [hct] at h; cases h
    · rw [hct] at h
      obtain ⟨mats, serrs1, cs1, cf1, sb1⟩ := okres
      simp only [execute_queries] at h
      rw [execute_queries_go_spec] at h
      simp only [List.nil_append, Nat.zero_add, Nat.add_zero] at h
      have hrecs2 : (recs ++ (List.range' (nS + 1)
            (r.queries.filter (fun q => ok (prepare_sql_for_duckdb q.2))).length).zip
            ((r.queries.filter (fun q => ok (prepare_sql_for_duckdb q.2))).map
              Prod.fst)).map Prod.fst =
          List.range' 1 (nS +
            (r.queries.filter (fun q => ok (prepare_sql_for_duckdb q.2))).length) := by
        rw [List.map_append, hrecs, List.map_fst_zip]
        · have := List.range'_append 1 nS
            ((r.queries.filter (fun q => ok (prepare_sql_for_duckdb q.2))).length) 1
          simp only [Nat.mul_one, Nat.one_mul] at this
          rw [Nat.add_comm 1 nS] at this
          rw [this, Nat.add_comm ((r.queries.filter
            (fun q => ok (prepare_sql_for_duckdb q.2))).length) nS]
        · simp
      have hq2 : (qerrs ++ (r.queries.filter
            (fun q => !(ok (prepare_sql_for_duckdb q.2)))).map
            (fun q => (⟨r.repo_id, q.1, prepare_sql_for_duckdb q.2⟩ : QErr))).length =
          nF + (r.queries.filter (fun q => !(ok (prepare_sql_for_duckdb q.2)))).length := by
        rw [List.length_append, hqerrs, List.length_map]
      obtain ⟨c1, c2, c3, c4⟩ := ih _ _ _ _ _ _ _ _ _ _ h hrecs2 hq2
      refine ⟨c1, ?_, ?_, c4⟩
      · rw [c2]; simp [List.map_cons, List.sum_cons]; omega
      · rw [c3]; simp [List.map_cons, List.sum_cons]; omega

set_option maxRecDepth 40000 in
/-- C8 counterexample: with `use_keys = False`, `primary_key()` is the
empty string, so the `executable_queries` table the orchestrator creates
declares its `id` column without any `PRIMARY KEY` constraint. -/
theorem executable_queries_ddl_no_pk :
    ¬ (cs "PRIMARY KEY" <:+: executable_queries_ddl) := by decide

/-- C8 (amended): across a whole run the orchestrator assigns the success
records consecutive, strictly increasing integer ids `1, 2, …` (used as the
persisted record's `id` column — the `PRIMARY KEY` constraint itself is
disabled because `use_keys` is `False`), incremented exactly once per
successful validation; the failure counter independently adds exactly one
per failed validation (one error row each). -/
theorem validation_id_streams (repos : List RepoInput) (fail ok : List Char → Bool)
    (recs : List (Nat × Nat)) (ns nf : Nat) (serrs : List SchemaErr)
    (qerrs : List QErr)
    (h : iterate_through_repos repos fail ok = .ok (recs, ns, nf, serrs, qerrs)) :
    recs.map Prod.fst = List.range' 1 ns ∧
    ns = (repos.map (fun r =>
      (r.queries.filter (fun q => ok (prepare_sql_for_duckdb q.2))).length)).sum ∧
    nf = (repos.map (fun r =>
      (r.queries.filter (fun q => !(ok (prepare_sql_for_duckdb q.2)))).length)).sum ∧
    qerrs.length = nf := by
  have := iterate_go_spec fail ok repos 0 0 [] [] [] recs ns nf serrs qerrs h rfl rfl
  simpa using this

/-- Witness for C8 at a concrete two-repository run in which the second of
three queries fails. -/
theorem validation_id_streams_witness :
    ([(1, 5), (2, 7)] : List (Nat × Nat)).map Prod.fst = List.range' 1 2 ∧
    2 = (twoRepos.map (fun r =>
      (r.queries.filter (fun q => queryBFails (prepare_sql_for_duckdb q.2))).length)).sum ∧
    1 = (twoRepos.map (fun r =>
      (r.queries.filter (fun q => !(queryBFails (prepare_sql_for_duckdb q.2)))).length)).sum ∧
    ([⟨1, 6, prepare_sql_for_duckdb (cs "b")⟩] : List QErr).length = 1 :=
  validation_id_streams twoRepos (fun _ => false) queryBFails
    [(1, 5), (2, 7)] 2 1 [] [⟨1, 6, prepare_sql_for_duckdb (cs "b")⟩] (by rfl)

end SqlPile
